import Mathlib

/-!
# yanic: database adapters, credential files and influxdb points

A shallow embedding of `database/database.go` (the adapter table and
`LoadCredentialFromFile`) together with the Go standard library functions it calls
(`os.ExpandEnv`, `os.ReadFile`, `strings.TrimSpace`, `unicode.IsSpace`,
`utf8.DecodeRuneInString`, `utf8.DecodeLastRuneInString`), and of the influxdb
point builder and password resolution as the specification describes them.

Go strings are byte sequences; a byte is a natural number below 256 and a rune is
the number of a code point. Go maps are association lists with unique keys.
-/

namespace Yanic

/-! ## Go strings -/

/-- A Go `string`: a sequence of bytes, not necessarily valid UTF-8. A byte is a
natural number below 256; the functions below treat anything else as an invalid
byte. A rune (a code point) is a natural number too. -/
abbrev GoString := List Nat

/-- Constant `utf8.RuneError`, the replacement character U+FFFD. -/
def RuneError : Nat := 0xFFFD

/-- Constant `utf8.RuneSelf`: bytes below it are single-byte runes. -/
def RuneSelf : Nat := 0x80

/-- Constant `utf8.UTFMax`: the longest encoding of a rune, in bytes. -/
def UTFMax : Nat := 4

/-- Constant `utf8.MaxRune`. -/
def MaxRune : Nat := 0x10FFFF

/-! ## package unicode/utf8 -/

/-- The tables `first` and `acceptRanges` of package utf8, read together: for a
leading byte, the length of the sequence it starts and the range its second
byte must lie in; `none` for a byte that starts no multi-byte sequence. -/
def firstInfo (s0 : Nat) : Option (Nat × Nat × Nat) :=
  if 0xC2 ≤ s0 ∧ s0 ≤ 0xDF then some (2, 0x80, 0xBF)
  else if s0 = 0xE0 then some (3, 0xA0, 0xBF)
  else if 0xE1 ≤ s0 ∧ s0 ≤ 0xEC then some (3, 0x80, 0xBF)
  else if s0 = 0xED then some (3, 0x80, 0x9F)
  else if 0xEE ≤ s0 ∧ s0 ≤ 0xEF then some (3, 0x80, 0xBF)
  else if s0 = 0xF0 then some (4, 0x90, 0xBF)
  else if 0xF1 ≤ s0 ∧ s0 ≤ 0xF3 then some (4, 0x80, 0xBF)
  else if s0 = 0xF4 then some (4, 0x80, 0x8F)
  else none

/-- Function `utf8.DecodeRuneInString`: the first rune of `s` and its width in
bytes; `(RuneError, 0)` for the empty string and `(RuneError, 1)` for an
invalid encoding. -/
def DecodeRune (s : GoString) : Nat × Nat :=
  match s with
  | [] => (RuneError, 0)
  | s0 :: _ =>
    if s0 < RuneSelf then (s0, 1)
    else
      match firstInfo s0 with
      | none => (RuneError, 1)
      | some (sz, lo, hi) =>
        if s.length < sz then (RuneError, 1)
        else
          let s1 := s.getD 1 0
          if s1 < lo ∨ hi < s1 then (RuneError, 1)
          else if sz ≤ 2 then ((s0 &&& 0x1F) <<< 6 ||| (s1 &&& 0x3F), 2)
          else
            let s2 := s.getD 2 0
            if s2 < 0x80 ∨ 0xBF < s2 then (RuneError, 1)
            else if sz ≤ 3 then
              ((s0 &&& 0x0F) <<< 12 ||| (s1 &&& 0x3F) <<< 6 ||| (s2 &&& 0x3F), 3)
            else
              let s3 := s.getD 3 0
              if s3 < 0x80 ∨ 0xBF < s3 then (RuneError, 1)
              else
                ((s0 &&& 0x07) <<< 18 ||| (s1 &&& 0x3F) <<< 12 ||| (s2 &&& 0x3F) <<< 6
                  ||| (s3 &&& 0x3F), 4)

/-- Function `utf8.RuneStart`: the byte is not a continuation byte. -/
def RuneStart (b : Nat) : Bool := b &&& 0xC0 != 0x80

/-- The backward scan of `utf8.DecodeLastRuneInString`,
`for start--; start >= lim; start-- { if RuneStart(s[start]) { break } }`
followed by `if start < 0 { start = 0 }`. The argument is `start + 1` for the
value `start` has when the loop condition is tested; the result is the final
`start`. -/
def lastRuneStart (s : GoString) (lim : Nat) : Nat → Nat
  | 0 => 0
  | n + 1 =>
    if n < lim then n
    else if RuneStart (s.getD n 0) then n
    else lastRuneStart s lim n

/-- Function `utf8.DecodeLastRuneInString`: the last rune of `s` and its width. -/
def DecodeLastRune (s : GoString) : Nat × Nat :=
  let stop := s.length
  if stop = 0 then (RuneError, 0)
  else
    let start := stop - 1
    let r := s.getD start 0
    if r < RuneSelf then (r, 1)
    else
      let lim := stop - UTFMax
      let start := lastRuneStart s lim start
      let rs := DecodeRune (s.drop start)
      if start + rs.2 ≠ stop then (RuneError, 1) else rs

/-- Function `utf8.AppendRune` on an empty buffer: the UTF-8 encoding of a rune. -/
def EncodeRune (r : Nat) : GoString :=
  if r ≤ 0x7F then [r]
  else if r ≤ 0x7FF then [0xC0 ||| (r >>> 6), 0x80 ||| (r &&& 0x3F)]
  else if MaxRune < r ∨ (0xD800 ≤ r ∧ r ≤ 0xDFFF) then [0xEF, 0xBF, 0xBD]
  else if r ≤ 0xFFFF then
    [0xE0 ||| (r >>> 12), 0x80 ||| ((r >>> 6) &&& 0x3F), 0x80 ||| (r &&& 0x3F)]
  else
    [0xF0 ||| (r >>> 18), 0x80 ||| ((r >>> 12) &&& 0x3F), 0x80 ||| ((r >>> 6) &&& 0x3F),
      0x80 ||| (r &&& 0x3F)]

/-- Conversion `string(runes)`: the UTF-8 encoding of a sequence of runes. -/
def encodeRunes (rs : List Nat) : GoString := rs.flatMap EncodeRune

/-- A Go string literal: the UTF-8 encoding of the text. -/
def lit (s : String) : GoString := encodeRunes (s.toList.map Char.toNat)

/-! ## package unicode -/

/-- Function `unicode.IsSpace`: the Unicode White_Space property. In Latin-1 these
are tab, line feed, vertical tab, form feed, carriage return, space, U+0085 and
U+00A0; beyond, the ranges of the table `White_Space`. -/
def IsSpace (r : Nat) : Bool :=
  if r ≤ 0xFF then
    r == 0x09 || r == 0x0A || r == 0x0B || r == 0x0C || r == 0x0D || r == 0x20
      || r == 0x85 || r == 0xA0
  else
    r == 0x1680 || (0x2000 ≤ r && r ≤ 0x200A) || (0x2028 ≤ r && r ≤ 0x2029)
      || r == 0x202F || r == 0x205F || r == 0x3000

/-! ## package strings -/

/-- The table `asciiSpace` of package strings. -/
def asciiSpace (c : Nat) : Bool :=
  c == 0x09 || c == 0x0A || c == 0x0B || c == 0x0C || c == 0x0D || c == 0x20

/-- The loop of `strings.indexFunc`, `for i, r := range s`: `i` is the offset of
the rune about to be decoded. `none` stands for the result -1. The loop decodes
at most `len(s)` runes, which is the fuel `indexFunc` gives it. -/
def indexFuncLoop (s : GoString) (f : Nat → Bool) (truth : Bool) : Nat → Nat → Option Nat
  | 0, _ => none
  | fuel + 1, i =>
    if s.length ≤ i then none
    else
      let rs := DecodeRune (s.drop i)
      if f rs.1 = truth then some i
      else indexFuncLoop s f truth fuel (i + rs.2)

/-- Function `strings.indexFunc`: the offset of the first rune `r` with
`f(r) == truth`, or `none` (-1). -/
def indexFunc (s : GoString) (f : Nat → Bool) (truth : Bool) : Option Nat :=
  indexFuncLoop s f truth s.length 0

/-- The loop of `strings.lastIndexFunc`, `for i := len(s); i > 0; { ... }`. -/
def lastIndexFuncLoop (s : GoString) (f : Nat → Bool) (truth : Bool) : Nat → Nat → Option Nat
  | 0, _ => none
  | fuel + 1, i =>
    if i = 0 then none
    else
      let rs := DecodeLastRune (s.take i)
      let i := i - rs.2
      if f rs.1 = truth then some i
      else lastIndexFuncLoop s f truth fuel i

/-- Function `strings.lastIndexFunc`: the offset of the last rune `r` with
`f(r) == truth`, or `none` (-1). -/
def lastIndexFunc (s : GoString) (f : Nat → Bool) (truth : Bool) : Option Nat :=
  lastIndexFuncLoop s f truth s.length s.length

/-- Function `strings.TrimLeftFunc`. -/
def TrimLeftFunc (s : GoString) (f : Nat → Bool) : GoString :=
  match indexFunc s f false with
  | none => []
  | some i => s.drop i

/-- Function `strings.TrimRightFunc`. -/
def TrimRightFunc (s : GoString) (f : Nat → Bool) : GoString :=
  match lastIndexFunc s f false with
  | some i =>
    if RuneSelf ≤ s.getD i 0 then s.take (i + (DecodeRune (s.drop i)).2)
    else s.take (i + 1)
  | none => s.take 0

/-- Function `strings.TrimFunc`. -/
def TrimFunc (s : GoString) (f : Nat → Bool) : GoString :=
  TrimRightFunc (TrimLeftFunc s f) f

/-- The first loop of `strings.TrimSpace`, which advances `start` over ASCII
white space. The result is the final `start` and whether the loop stopped at a
non-ASCII byte. -/
def trimSpaceStart : GoString → Nat → Nat × Bool
  | [], start => (start, false)
  | c :: rest, start =>
    if RuneSelf ≤ c then (start, true)
    else if asciiSpace c then trimSpaceStart rest (start + 1)
    else (start, false)

/-- The second loop of `strings.TrimSpace`, `for ; stop > start; stop--`, which
moves `stop` back over ASCII white space. The result is the final `stop` and
whether the loop stopped at a non-ASCII byte. -/
def trimSpaceStop (s : GoString) (start : Nat) : Nat → Nat × Bool
  | 0 => (0, false)
  | stop + 1 =>
    if start < stop + 1 then
      let c := s.getD stop 0
      if RuneSelf ≤ c then (stop + 1, true)
      else if asciiSpace c then trimSpaceStop s start stop
      else (stop + 1, false)
    else (stop + 1, false)

/-- Function `strings.TrimSpace`: `s` without its leading and trailing white
space, as defined by Unicode. -/
def TrimSpace (s : GoString) : GoString :=
  let st := trimSpaceStart s 0
  if st.2 then TrimFunc (s.drop st.1) IsSpace
  else
    let sp := trimSpaceStop s st.1 s.length
    if sp.2 then TrimRightFunc ((s.take sp.1).drop st.1) IsSpace
    else (s.take sp.1).drop st.1

/-- A string that holds white space only: the UTF-8 encoding of a sequence of
runes each of which is white space (`unicode.IsSpace`). -/
def IsWhiteSpace (b : GoString) : Prop :=
  ∃ rs : List Nat, (∀ r ∈ rs, IsSpace r = true) ∧ b = encodeRunes rs

/-- The string starts with a white-space character: its first rune, decoded as
`utf8.DecodeRuneInString` does, is white space. False for the empty string. -/
def startsWithSpace (s : GoString) : Bool := IsSpace (DecodeRune s).1

/-- The string ends with a white-space character: its last rune, decoded as
`utf8.DecodeLastRuneInString` does, is white space. False for the empty string. -/
def endsWithSpace (s : GoString) : Bool := IsSpace (DecodeLastRune s).1

/-! ## package os -/

/-- The process environment: the value of each variable that is set. -/
abbrev Environ := GoString → Option GoString

/-- Function `os.Getenv`: the value of the variable, empty when it is not set. -/
def Getenv (env : Environ) (key : GoString) : GoString := (env key).getD []

/-- Function `isShellSpecialVar` of package os: one of `* # $ @ ! ? -` or a digit. -/
def isShellSpecialVar (c : Nat) : Bool :=
  c == 42 || c == 35 || c == 36 || c == 64 || c == 33 || c == 63 || c == 45
    || (48 ≤ c && c ≤ 57)

/-- Function `isAlphaNum` of package os: an underscore, a digit or an ASCII letter. -/
def isAlphaNum (c : Nat) : Bool :=
  c == 95 || (48 ≤ c && c ≤ 57) || (97 ≤ c && c ≤ 122) || (65 ≤ c && c ≤ 90)

/-- The loop of `getShellName` that scans to the closing brace,
`for i := 1; i < len(s); i++ { if s[i] == 125 ... }`: the index of the first
closing brace, where the list starts at index `i`. -/
def scanBrace : GoString → Nat → Option Nat
  | [], _ => none
  | c :: rest, i => if c = 125 then some i else scanBrace rest (i + 1)

/-- The loop of `getShellName` that scans alphanumerics: the number of leading
bytes for which `isAlphaNum` holds. -/
def scanAlphaNum : GoString → Nat
  | [] => 0
  | c :: rest => if isAlphaNum c then scanAlphaNum rest + 1 else 0

/-- Function `getShellName` of package os: the name that begins the string and
the number of bytes consumed to extract it. `Expand` calls it on a non-empty
string only. -/
def getShellName (s : GoString) : GoString × Nat :=
  match s with
  | [] => ([], 0)
  | c0 :: rest =>
    if c0 = 123 then
      if 2 < s.length ∧ isShellSpecialVar (s.getD 1 0) = true ∧ s.getD 2 0 = 125 then
        ((s.take 2).drop 1, 3)
      else
        match scanBrace rest 1 with
        | some i => if i = 1 then ([], 2) else ((s.take i).drop 1, i + 1)
        | none => ([], 1)
    else if isShellSpecialVar c0 then (s.take 1, 1)
    else (s.take (scanAlphaNum s), scanAlphaNum s)

/-- What `os.Expand` appends to `buf` for the result `(name, w)` of
`getShellName` at a dollar sign `c`: nothing for invalid syntax, the dollar sign
when no name follows, the value of the name otherwise. -/
def expandStep (mapping : GoString → GoString) (c : Nat) (nw : GoString × Nat) : GoString :=
  if nw.1 = [] ∧ 0 < nw.2 then []
  else if nw.1 = [] then [c]
  else mapping nw.1

/-- The loop of `os.Expand`, `for j := 0; j < len(s); j++ { ... }`, on its state:
`buf` (`none` while it is nil), `i` and `j`. The result is `buf` and `i` after
the loop. Every iteration moves `j` forward, so `len(s)` iterations, the fuel
`Expand` gives, are enough. -/
def expandLoop (s : GoString) (mapping : GoString → GoString) :
    Nat → Option GoString → Nat → Nat → Option GoString × Nat
  | 0, buf, i, _ => (buf, i)
  | fuel + 1, buf, i, j =>
    if j < s.length then
      if s.getD j 0 = 36 ∧ j + 1 < s.length then
        let nw := getShellName (s.drop (j + 1))
        let buf := buf.getD [] ++ (s.take j).drop i ++ expandStep mapping (s.getD j 0) nw
        let j := j + nw.2
        expandLoop s mapping fuel (some buf) (j + 1) (j + 1)
      else expandLoop s mapping fuel buf i (j + 1)
    else (buf, i)

/-- Function `os.Expand`: replaces `${var}` or `$var` in the string based on the
mapping function. -/
def Expand (s : GoString) (mapping : GoString → GoString) : GoString :=
  match expandLoop s mapping s.length none 0 0 with
  | (none, _) => s
  | (some buf, i) => buf ++ s.drop i

/-- The output of `os.Expand` from the bytes that remain, for the proofs: `skip`
is the number of bytes still to jump over after a `$name`; a byte that is not
part of an expansion is copied. -/
def expandRest (mapping : GoString → GoString) : Nat → GoString → GoString
  | _, [] => []
  | skip + 1, _ :: rest => expandRest mapping skip rest
  | 0, c :: rest =>
    if c = 36 ∧ rest ≠ [] then
      expandStep mapping c (getShellName rest) ++ expandRest mapping (getShellName rest).2 rest
    else c :: expandRest mapping 0 rest

/-- Function `os.ExpandEnv`: `Expand(s, Getenv)`. -/
def ExpandEnv (env : Environ) (s : GoString) : GoString := Expand s (Getenv env)

/-- The error of a failed `os.ReadFile`, a `*fs.PathError`. -/
structure PathError where
  Op : GoString
  Path : GoString
  Err : GoString
  deriving DecidableEq

/-- The file system as `os.ReadFile` sees it: for each path the content of the
file or the error of the read. -/
abbrev FileSystem := GoString → Except PathError GoString

/-- Function `os.ReadFile`. -/
def ReadFile (fs : FileSystem) (name : GoString) : Except PathError GoString := fs name

/-! ## package database (database/database.go) -/

/-- The type of `Adapters`, `map[string]Connect`, for a type `Connect` of
connect functions. The variable is initialised to an empty map and the package
assigns it nowhere, so its value is never the nil map. -/
abbrev AdapterTable (Connect : Type) := AList (fun _ : GoString => Connect)

/-- Variable `Adapters`, the list of registered database adapters, as
initialised: `map[string]Connect{}`. -/
def Adapters (Connect : Type) : AdapterTable Connect := ∅

/-- Function `RegisterAdapter`: `Adapters[name] = n`, on the table passed in. The
index expression `Adapters[name]` is `table.lookup name`. -/
def RegisterAdapter {Connect : Type} (table : AdapterTable Connect) (name : GoString)
    (n : Connect) : AdapterTable Connect :=
  table.insert name n

/-- A run of `RegisterAdapter` calls, in order, starting from a table. -/
def registerAll {Connect : Type} (table : AdapterTable Connect)
    (calls : List (GoString × Connect)) : AdapterTable Connect :=
  calls.foldl (fun t c => RegisterAdapter t c.1 c.2) table

/-- Function `LoadCredentialFromFile`. The result `.error err` stands for
`panic(err)`. -/
def LoadCredentialFromFile (env : Environ) (fs : FileSystem) (filename : GoString) :
    Except PathError GoString :=
  -- Expand environment variables in the password file path
  let expandedPath := ExpandEnv env filename
  match ReadFile fs expandedPath with
  | .error err => .error err
  | .ok file =>
    -- Remove all leading and trailing white spaces from the password and return it
    .ok (TrimSpace file)

/-! ## The adapter registry's lookup (specification, section 4.1) -/

/-- Modelled from the spec: the LookupError of section 7, an "unknown adapter name
requested from the registry". The sources declare no such error. -/
inductive LookupError where
  | unknownAdapter (name : GoString)
  deriving DecidableEq

/-- Modelled from the spec: the registry's `Lookup(name)`, which "returns the
factory or an Unknown-Adapter error" (section 4.1). The sources hold the table
and `RegisterAdapter` only; the lookup is the index expression
`Adapters[name]` with its missing entry reported as the error. -/
def Lookup {Connect : Type} (table : AdapterTable Connect) (name : GoString) :
    Except LookupError Connect :=
  match table.lookup name with
  | some factory => .ok factory
  | none => .error (.unknownAdapter name)

/-! ## package influxdb (database/influxdb), from the specification

`database/influxdb/database.go` is not among the sources (its tests are), so the
configuration, the password resolution, the tag sanitizer and the point builder
follow sections 3, 4.2, 4.3 and 4.4 of the specification. Tag keys and values
are sequences of Unicode code points there, hence `String`. -/

/-- Modelled from the spec: the TagSet of section 3, a mapping from string to
string with unique keys (the type `models.Tags` of the influxdb client, which is
not among the sources). -/
abbrev TagSet := AList (fun _ : String => String)

/-- Modelled from the spec: the typed value of a field, "integer/float/string/
boolean" (section 6); a float is kept as its bit pattern. The type
`models.Fields` of the influxdb client is not among the sources. -/
inductive FieldValue where
  | integer (v : Int)
  | float (bits : Nat)
  | string (v : String)
  | boolean (v : Bool)
  deriving DecidableEq

/-- Modelled from the spec: the FieldSet of section 3, a mapping from string to
typed value. Go's nil map and its empty map are both the empty mapping. -/
abbrev FieldSet := AList (fun _ : String => FieldValue)

/-- Modelled from the spec: the connection's Config (sections 3 and 6, as the
"typed configuration structure with explicit optional fields" of section 9) with
the keys used below: `password`, `password_file` and `tags`. The type
`Config` of `database/influxdb` is not among the sources. -/
structure Config where
  password : Option GoString := none
  password_file : Option GoString := none
  tags : TagSet := ∅

/-- Modelled from the spec: the CredentialResolver of section 4.2, method
`Config.Password` of `database/influxdb`, which is not among the sources: "if the
file-path field is present and non-empty, [...] read and [...] trim the file's
entire content; this value takes precedence over the inline field [...]. If the
file-path field is absent or empty, return the inline field verbatim, or an
empty string if that field is also absent." The result `.error err` is the
fatal condition of an unreadable file. -/
def Config.Password (c : Config) (env : Environ) (fs : FileSystem) :
    Except PathError GoString :=
  match c.password_file with
  | some path =>
    if path = [] then .ok (c.password.getD [])
    else LoadCredentialFromFile env fs path
  | none => .ok (c.password.getD [])

/-- Modelled from the spec: "classified as a control character (C0/C1 range)"
(section 4.3), the Unicode category Cc: U+0000 to U+001F and U+007F to U+009F.
Tab, line feed and carriage return are among them. -/
def isControl (c : Char) : Bool :=
  c.toNat ≤ 0x1F || (0x7F ≤ c.toNat && c.toNat ≤ 0x9F)

/-- Modelled from the spec: a "Unicode space/separator code point" (section 4.3),
the Unicode categories Zs, Zl and Zp: U+0020, U+00A0, U+1680, U+2000 to U+200A,
U+2028, U+2029, U+202F, U+205F and U+3000. -/
def isSeparator (c : Char) : Bool :=
  c.toNat == 0x20 || c.toNat == 0xA0 || c.toNat == 0x1680
    || (0x2000 ≤ c.toNat && c.toNat ≤ 0x200A) || c.toNat == 0x2028 || c.toNat == 0x2029
    || c.toNat == 0x202F || c.toNat == 0x205F || c.toNat == 0x3000

/-- Modelled from the spec: the code points the TagSanitizer of section 4.3
replaces, "a control character (C0/C1 range), horizontal tab, line feed, carriage
return, non-breaking space (U+00A0), or any other Unicode space/separator code
point other than the plain ASCII space (U+0020)". -/
def isReplaced (c : Char) : Bool :=
  isControl c || (isSeparator c && c != ' ')

/-- Modelled from the spec: the TagSanitizer of section 4.3 on one code point: a
replaced code point becomes "a single ASCII space; every other code point [...]
passes through unchanged". -/
def sanitizeRune (c : Char) : Char :=
  if isReplaced c then ' ' else c

/-- Modelled from the spec: the TagSanitizer of section 4.3 (part of `addPoint` in
`database/influxdb`, which is not among the sources) on a tag value. -/
def TagSanitizer (v : String) : String :=
  String.mk (v.data.map sanitizeRune)

/-- Modelled from the spec: step 1 of the PointBuilder (section 4.4), "Run
TagSanitizer over every origin tag value". -/
def sanitizeTags (tags : TagSet) : TagSet :=
  ⟨tags.entries.map (fun e => ⟨e.1, TagSanitizer e.2⟩), by
    have h := tags.nodupKeys
    rw [List.nodupKeys_iff_pairwise] at h ⊢
    exact List.pairwise_map.2 h⟩

/-- Modelled from the spec: step 2 of the PointBuilder (section 4.4), "For each
key/value pair in the Config's global-tags setting, insert it into the tag set
only if that key is not already present [...]. Run TagSanitizer over inserted
global values as well." -/
def mergeGlobalTags (tags : TagSet) (globals : TagSet) : TagSet :=
  globals.entries.foldl
    (fun acc e => if (acc.lookup e.1).isSome then acc else acc.insert e.1 (TagSanitizer e.2))
    tags

/-- Modelled from the spec: the MetricPoint of section 3, "measurement name +
TagSet + FieldSet + timestamp". -/
structure MetricPoint where
  name : String
  tags : TagSet
  fields : FieldSet
  time : Int

/-- Modelled from the spec: the ConstructionError of section 7, an "attempt to
build a point with an empty field set". -/
inductive ConstructionError where
  | emptyFields
  deriving DecidableEq

/-- Modelled from the spec: steps 3 and 4 of the PointBuilder (section 4.4),
"Validate FieldSet is non-empty; if empty, fail with a construction error" and
"Produce an immutable MetricPoint" (function `client.NewPoint` of the influxdb
client, which is not among the sources). -/
def NewPoint (name : String) (tags : TagSet) (fields : FieldSet) (t : Int) :
    Except ConstructionError MetricPoint :=
  if fields.entries.isEmpty then .error .emptyFields
  else .ok { name := name, tags := tags, fields := fields, time := t }

/-- Modelled from the spec: the connection of section 3 as far as the point
builder uses it, its Config and its queue of pending points (the channel
`points` of the type `Connection` of `database/influxdb`, which is not among the
sources). -/
structure Connection where
  config : Config
  points : List MetricPoint

/-- Modelled from the spec: the PointBuilder of section 4.4 followed by the enqueue
of section 4.6, method `addPoint` of `database/influxdb`, which is not among the
sources. The result is the outcome (`.error e` for the construction error, which
the test observes as a panic) and the connection afterwards. -/
def addPoint (conn : Connection) (name : String) (tags : TagSet) (fields : FieldSet)
    (t : Int) : Except ConstructionError Unit × Connection :=
  match NewPoint name (mergeGlobalTags (sanitizeTags tags) conn.config.tags) fields t with
  | .error e => (.error e, conn)
  | .ok point => (.ok (), { conn with points := conn.points ++ [point] })

/-! ## Valid UTF-8 sequences -/

/-- A valid two-byte sequence: a leading byte from C2 to DF and a continuation
byte. -/
def valid2 (s0 s1 : Nat) : Prop := 0xC2 ≤ s0 ∧ s0 ≤ 0xDF ∧ 0x80 ≤ s1 ∧ s1 ≤ 0xBF

/-- A valid three-byte sequence: a leading byte from E0 to EF and two continuation
bytes, the first of them from A0 after E0 (no overlong form) and up to 9F after
ED (no surrogate). -/
def valid3 (s0 s1 s2 : Nat) : Prop :=
  0xE0 ≤ s0 ∧ s0 ≤ 0xEF ∧ 0x80 ≤ s1 ∧ s1 ≤ 0xBF ∧ (s0 ≠ 0xE0 ∨ 0xA0 ≤ s1)
    ∧ (s0 ≠ 0xED ∨ s1 ≤ 0x9F) ∧ 0x80 ≤ s2 ∧ s2 ≤ 0xBF

/-- A valid four-byte sequence: a leading byte from F0 to F4 and three continuation
bytes, the first of them from 90 after F0 (no overlong form) and up to 8F after
F4 (nothing beyond `MaxRune`). -/
def valid4 (s0 s1 s2 s3 : Nat) : Prop :=
  0xF0 ≤ s0 ∧ s0 ≤ 0xF4 ∧ 0x80 ≤ s1 ∧ s1 ≤ 0xBF ∧ (s0 ≠ 0xF0 ∨ 0x90 ≤ s1)
    ∧ (s0 ≠ 0xF4 ∨ s1 ≤ 0x8F) ∧ 0x80 ≤ s2 ∧ s2 ≤ 0xBF ∧ 0x80 ≤ s3 ∧ s3 ≤ 0xBF

/-! ## Inputs of the tests (database/influxdb/database_test.go) -/

/-- The environment of `TestPassword`: `CREDENTIALS_DIRECTORY` is set to
`testdata`. -/
def testEnviron : Environ := fun key =>
  if key = lit "CREDENTIALS_DIRECTORY" then some (lit "testdata") else none

/-- A file system with the two files `TestPassword` reads. The files are not among
the sources; the first holds the expected secret and a line feed, the second a
secret with white space inside and ASCII and non-ASCII white space around it. -/
def testFiles : FileSystem := fun name =>
  if name = lit "testdata/password.txt" then .ok (lit "Extr3MePAssWORDfromFiLE\n")
  else if name = lit "testdata/password-with-whitepaces.txt" then
    .ok (lit "\n\n   EXTREMLY DIFFERENT\tPASSWORD \u3000\t\r\n")
  else .error ⟨lit "open", name, lit "no such file or directory"⟩

/-- The config of `TestPassword` that sets both fields, "to test priority of
fields". -/
def testConfig : Config :=
  { password := some (lit "NotTheFilePassword"),
    password_file := some (lit "testdata/password.txt") }

/-- The field set of `TestAddPoint`: `clients.total` is 10. -/
def testFields : FieldSet := AList.singleton "clients.total" (FieldValue.integer 10)

/-- The connection of `TestAddPoint` whose config tries to overwrite `nodeid`. -/
def testConnection : Connection :=
  { config := { tags := AList.singleton "nodeid" "value" }, points := [] }

/-- The origin tags of `TestAddPoint`: `nodeid` is `collected`. -/
def testOrigin : TagSet := AList.singleton "nodeid" "collected"

/-- A connection whose config holds a global tag with a tab in its value. -/
def tabConnection : Connection :=
  { config := { tags := AList.singleton "site" "a\tb" }, points := [] }

/-- Three registrations, two of them under the same name; the connect functions
are numbered. -/
def testCalls : List (GoString × Nat) :=
  [(lit "influxdb", 1), (lit "logging", 2), (lit "influxdb", 3)]

/-! ## Theorems: UTF-8 decoding and encoding -/

/-- The white-space runes, one by one. -/
theorem isSpace_cases (r : Nat) (h : IsSpace r = true) :
    r = 0x09 ∨ r = 0x0A ∨ r = 0x0B ∨ r = 0x0C ∨ r = 0x0D ∨ r = 0x20 ∨ r = 0x85 ∨ r = 0xA0
    ∨ r = 0x1680 ∨ r = 0x2000 ∨ r = 0x2001 ∨ r = 0x2002 ∨ r = 0x2003 ∨ r = 0x2004
    ∨ r = 0x2005 ∨ r = 0x2006 ∨ r = 0x2007 ∨ r = 0x2008 ∨ r = 0x2009 ∨ r = 0x200A
    ∨ r = 0x2028 ∨ r = 0x2029 ∨ r = 0x202F ∨ r = 0x205F ∨ r = 0x3000 := by
  unfold IsSpace at h
  split at h
  · simp at h
    rcases h with (((((((h | h) | h) | h) | h) | h) | h) | h) <;> simp [h]
  · simp at h
    rcases h with (((((h | ⟨h1, h2⟩) | ⟨h1, h2⟩) | h) | h) | h)
    · simp [h]
    · interval_cases r <;> simp
    · interval_cases r <;> simp
    · simp [h]
    · simp [h]
    · simp [h]

/-- No white-space rune lies beyond U+3000. -/
theorem isSpace_le (r : Nat) (h : IsSpace r = true) : r ≤ 0x3000 := by
  rcases isSpace_cases r h with h | h | h | h | h | h | h | h | h | h | h | h | h | h | h | h
    | h | h | h | h | h | h | h | h | h <;> omega

/-- The bits of a two-byte sequence, as arithmetic. -/
theorem decode2_arith (a b : Nat) :
    (a &&& 0x1F) <<< 6 ||| (b &&& 0x3F) = 64 * (a % 32) + b % 64 := by
  have h1 : a &&& 0x1F = a % 32 := Nat.and_pow_two_sub_one_eq_mod a 5
  have h2 : b &&& 0x3F = b % 64 := Nat.and_pow_two_sub_one_eq_mod b 6
  have hb : b % 64 < 2 ^ 6 := Nat.mod_lt _ (by norm_num)
  rw [h1, h2, Nat.shiftLeft_eq, Nat.mul_comm, ← Nat.mul_add_lt_is_or hb]

/-- The bits of a three-byte sequence, as arithmetic. -/
theorem decode3_arith (a b c : Nat) :
    (a &&& 0x0F) <<< 12 ||| (b &&& 0x3F) <<< 6 ||| (c &&& 0x3F)
      = 4096 * (a % 16) + 64 * (b % 64) + c % 64 := by
  have h1 : a &&& 0x0F = a % 16 := Nat.and_pow_two_sub_one_eq_mod a 4
  have h2 : b &&& 0x3F = b % 64 := Nat.and_pow_two_sub_one_eq_mod b 6
  have h3 : c &&& 0x3F = c % 64 := Nat.and_pow_two_sub_one_eq_mod c 6
  have hb : (b % 64) * 2 ^ 6 < 2 ^ 12 := by
    have := Nat.mod_lt b (show 0 < 64 by norm_num)
    omega
  have hc : c % 64 < 2 ^ 6 := Nat.mod_lt _ (by norm_num)
  rw [h1, h2, h3, Nat.shiftLeft_eq, Nat.shiftLeft_eq, Nat.mul_comm (a % 16),
    ← Nat.mul_add_lt_is_or hb]
  have e : 2 ^ 12 * (a % 16) + b % 64 * 2 ^ 6 = 2 ^ 6 * (64 * (a % 16) + b % 64) := by ring
  rw [e, ← Nat.mul_add_lt_is_or hc]
  ring

/-- The bits of a four-byte sequence, as arithmetic. -/
theorem decode4_arith (a b c d : Nat) :
    (a &&& 0x07) <<< 18 ||| (b &&& 0x3F) <<< 12 ||| (c &&& 0x3F) <<< 6 ||| (d &&& 0x3F)
      = 262144 * (a % 8) + 4096 * (b % 64) + 64 * (c % 64) + d % 64 := by
  have h1 : a &&& 0x07 = a % 8 := Nat.and_pow_two_sub_one_eq_mod a 3
  have h2 : b &&& 0x3F = b % 64 := Nat.and_pow_two_sub_one_eq_mod b 6
  have h3 : c &&& 0x3F = c % 64 := Nat.and_pow_two_sub_one_eq_mod c 6
  have h4 : d &&& 0x3F = d % 64 := Nat.and_pow_two_sub_one_eq_mod d 6
  have hb : (b % 64) * 2 ^ 12 < 2 ^ 18 := by
    have := Nat.mod_lt b (show 0 < 64 by norm_num)
    omega
  have hc : (c % 64) * 2 ^ 6 < 2 ^ 12 := by
    have := Nat.mod_lt c (show 0 < 64 by norm_num)
    omega
  have hd : d % 64 < 2 ^ 6 := Nat.mod_lt _ (by norm_num)
  rw [h1, h2, h3, h4, Nat.shiftLeft_eq, Nat.shiftLeft_eq, Nat.shiftLeft_eq,
    Nat.mul_comm (a % 8), ← Nat.mul_add_lt_is_or hb]
  have e : 2 ^ 18 * (a % 8) + b % 64 * 2 ^ 12
      = 2 ^ 12 * (64 * (a % 8) + b % 64) := by ring
  rw [e, ← Nat.mul_add_lt_is_or hc]
  have e2 : 2 ^ 12 * (64 * (a % 8) + b % 64) + c % 64 * 2 ^ 6
      = 2 ^ 6 * (4096 * (a % 8) + 64 * (b % 64) + c % 64) := by ring
  rw [e2, ← Nat.mul_add_lt_is_or hd]
  ring

/-- A byte below `RuneSelf` decodes to itself. -/
theorem decodeRune_ascii (s0 : Nat) (t : List Nat) (h : s0 < 0x80) :
    DecodeRune (s0 :: t) = (s0, 1) := by
  simp [DecodeRune, RuneSelf, h]

/-- A valid two-byte sequence decodes to its rune, width 2. -/
theorem decodeRune_two (s0 s1 : Nat) (t : List Nat) (h : valid2 s0 s1) :
    DecodeRune (s0 :: s1 :: t) = (64 * (s0 % 32) + s1 % 64, 2) := by
  obtain ⟨h0, h0', h1, h1'⟩ := h
  have hf : firstInfo s0 = some (2, 0x80, 0xBF) := by simp [firstInfo, h0, h0']
  have hn : ¬ s0 < 0x80 := by omega
  have hc : ¬ (s1 < 0x80 ∨ 0xBF < s1) := by omega
  simp only [DecodeRune, RuneSelf, hn, if_false, hf, List.getD_cons_succ, List.getD_cons_zero,
    hc, decode2_arith]
  simp

/-- A valid three-byte sequence decodes to its rune, width 3. -/
theorem decodeRune_three (s0 s1 s2 : Nat) (t : List Nat) (h : valid3 s0 s1 s2) :
    DecodeRune (s0 :: s1 :: s2 :: t) = (4096 * (s0 % 16) + 64 * (s1 % 64) + s2 % 64, 3) := by
  obtain ⟨h0, h0', h1, h1', ha, hb, h2, h2'⟩ := h
  have hn : ¬ s0 < 0x80 := by omega
  have hc2 : ¬ (s2 < 0x80 ∨ 0xBF < s2) := by omega
  have hf : ∃ lo hi, firstInfo s0 = some (3, lo, hi) ∧ ¬ (s1 < lo ∨ hi < s1) := by
    unfold firstInfo
    split_ifs <;> first | omega | (refine ⟨_, _, rfl, ?_⟩; omega)
  obtain ⟨lo, hi, hf, hc⟩ := hf
  simp only [DecodeRune, RuneSelf, hn, if_false, hf, List.getD_cons_succ, List.getD_cons_zero,
    hc, hc2, decode3_arith]
  simp

/-- A valid four-byte sequence decodes to its rune, width 4. -/
theorem decodeRune_four (s0 s1 s2 s3 : Nat) (t : List Nat) (h : valid4 s0 s1 s2 s3) :
    DecodeRune (s0 :: s1 :: s2 :: s3 :: t)
      = (262144 * (s0 % 8) + 4096 * (s1 % 64) + 64 * (s2 % 64) + s3 % 64, 4) := by
  obtain ⟨h0, h0', h1, h1', ha, hb, h2, h2', h3, h3'⟩ := h
  have hn : ¬ s0 < 0x80 := by omega
  have hc2 : ¬ (s2 < 0x80 ∨ 0xBF < s2) := by omega
  have hc3 : ¬ (s3 < 0x80 ∨ 0xBF < s3) := by omega
  have hf : ∃ lo hi, firstInfo s0 = some (4, lo, hi) ∧ ¬ (s1 < lo ∨ hi < s1) := by
    unfold firstInfo
    split_ifs <;> first | omega | (refine ⟨_, _, rfl, ?_⟩; omega)
  obtain ⟨lo, hi, hf, hc⟩ := hf
  simp only [DecodeRune, RuneSelf, hn, if_false, hf, List.getD_cons_succ, List.getD_cons_zero,
    hc, hc2, hc3, decode4_arith]
  simp

/-- The bytes that start no multi-byte sequence. -/
theorem firstInfo_none (s0 : Nat) (h : firstInfo s0 = none) : s0 < 0xC2 ∨ 0xF4 < s0 := by
  unfold firstInfo at h
  split_ifs at h
  omega

/-- What the table holds for a leading byte. -/
theorem firstInfo_some (s0 sz lo hi : Nat) (h : firstInfo s0 = some (sz, lo, hi)) :
    ((sz = 2 ∧ 0xC2 ≤ s0 ∧ s0 ≤ 0xDF) ∨ (sz = 3 ∧ 0xE0 ≤ s0 ∧ s0 ≤ 0xEF)
      ∨ (sz = 4 ∧ 0xF0 ≤ s0 ∧ s0 ≤ 0xF4))
    ∧ ((s0 = 0xE0 ∧ lo = 0xA0) ∨ (s0 = 0xF0 ∧ lo = 0x90)
      ∨ (s0 ≠ 0xE0 ∧ s0 ≠ 0xF0 ∧ lo = 0x80))
    ∧ ((s0 = 0xED ∧ hi = 0x9F) ∨ (s0 = 0xF4 ∧ hi = 0x8F)
      ∨ (s0 ≠ 0xED ∧ s0 ≠ 0xF4 ∧ hi = 0xBF)) := by
  unfold firstInfo at h
  split_ifs at h <;> simp only [Option.some.injEq, Prod.mk.injEq] at h <;>
    obtain ⟨rfl, rfl, rfl⟩ := h <;> omega

/-- A string that starts with no valid sequence decodes to `(RuneError, 1)`. -/
theorem decodeRune_invalid (s0 : Nat) (t : List Nat) (h0 : 0x80 ≤ s0)
    (n2 : ∀ s1 u, t = s1 :: u → ¬ valid2 s0 s1)
    (n3 : ∀ s1 s2 u, t = s1 :: s2 :: u → ¬ valid3 s0 s1 s2)
    (n4 : ∀ s1 s2 s3 u, t = s1 :: s2 :: s3 :: u → ¬ valid4 s0 s1 s2 s3) :
    DecodeRune (s0 :: t) = (RuneError, 1) := by
  have hn : ¬ s0 < 0x80 := by omega
  cases hfi : firstInfo s0 with
  | none => simp [DecodeRune, RuneSelf, hn, hfi]
  | some v =>
    obtain ⟨sz, lo, hi⟩ := v
    obtain ⟨f1, f2, f3⟩ := firstInfo_some s0 sz lo hi hfi
    rcases t with _ | ⟨s1, _ | ⟨s2, _ | ⟨s3, u⟩⟩⟩
    · simp only [DecodeRune, RuneSelf, hn, if_false, hfi, List.length_cons, List.length_nil]
      rw [if_pos (by omega)]
    · have k2 := n2 s1 [] rfl
      simp only [valid2] at k2
      simp only [DecodeRune, RuneSelf, hn, if_false, hfi, List.length_cons, List.length_nil,
        List.getD_cons_succ, List.getD_cons_zero, List.getD_nil]
      split_ifs <;> first | rfl | (exfalso; omega)
    · have k2 := n2 s1 [s2] rfl
      have k3 := n3 s1 s2 [] rfl
      simp only [valid2, valid3] at k2 k3
      simp only [DecodeRune, RuneSelf, hn, if_false, hfi, List.length_cons, List.length_nil,
        List.getD_cons_succ, List.getD_cons_zero, List.getD_nil]
      split_ifs <;> first | rfl | (exfalso; omega)
    · have k2 := n2 s1 (s2 :: s3 :: u) rfl
      have k3 := n3 s1 s2 (s3 :: u) rfl
      have k4 := n4 s1 s2 s3 u rfl
      simp only [valid2, valid3, valid4] at k2 k3 k4
      simp only [DecodeRune, RuneSelf, hn, if_false, hfi, List.length_cons, List.length_nil,
        List.getD_cons_succ, List.getD_cons_zero, List.getD_nil]
      split_ifs <;> first | rfl | (exfalso; omega)

/-- The shapes of a string, by how its first rune decodes. -/
theorem decodeRune_cases (a : List Nat) :
    a = []
    ∨ (∃ s0 t, a = s0 :: t ∧ s0 < 0x80)
    ∨ (∃ s0 t, a = s0 :: t ∧ 0x80 ≤ s0 ∧ DecodeRune a = (RuneError, 1))
    ∨ (∃ s0 s1 t, a = s0 :: s1 :: t ∧ valid2 s0 s1)
    ∨ (∃ s0 s1 s2 t, a = s0 :: s1 :: s2 :: t ∧ valid3 s0 s1 s2)
    ∨ (∃ s0 s1 s2 s3 t, a = s0 :: s1 :: s2 :: s3 :: t ∧ valid4 s0 s1 s2 s3) := by
  rcases a with _ | ⟨s0, t⟩
  · exact Or.inl rfl
  by_cases h0 : s0 < 0x80
  · exact Or.inr (Or.inl ⟨s0, t, rfl, h0⟩)
  by_cases e2 : ∃ s1 u, t = s1 :: u ∧ valid2 s0 s1
  · obtain ⟨s1, u, rfl, hv⟩ := e2
    exact Or.inr (Or.inr (Or.inr (Or.inl ⟨s0, s1, u, rfl, hv⟩)))
  by_cases e3 : ∃ s1 s2 u, t = s1 :: s2 :: u ∧ valid3 s0 s1 s2
  · obtain ⟨s1, s2, u, rfl, hv⟩ := e3
    exact Or.inr (Or.inr (Or.inr (Or.inr (Or.inl ⟨s0, s1, s2, u, rfl, hv⟩))))
  by_cases e4 : ∃ s1 s2 s3 u, t = s1 :: s2 :: s3 :: u ∧ valid4 s0 s1 s2 s3
  · obtain ⟨s1, s2, s3, u, rfl, hv⟩ := e4
    exact Or.inr (Or.inr (Or.inr (Or.inr (Or.inr ⟨s0, s1, s2, s3, u, rfl, hv⟩))))
  refine Or.inr (Or.inr (Or.inl ⟨s0, t, rfl, by omega, ?_⟩))
  exact decodeRune_invalid s0 t (by omega) (fun s1 u ht hv => e2 ⟨s1, u, ht, hv⟩)
    (fun s1 s2 u ht hv => e3 ⟨s1, s2, u, ht, hv⟩)
    (fun s1 s2 s3 u ht hv => e4 ⟨s1, s2, s3, u, ht, hv⟩)

/-- The replacement character is not white space. -/
theorem isSpace_runeError : IsSpace RuneError = false := by decide

/-- A bitwise or of disjoint bit ranges is a sum. -/
theorem or_arith (k : Nat) (a x : Nat) (hx : x < 2 ^ k) : 2 ^ k * a ||| x = 2 ^ k * a + x :=
  (Nat.mul_add_lt_is_or hx a).symm

/-- The encoding of a rune below U+0080. -/
theorem encodeRune_one (r : Nat) (h : r ≤ 0x7F) : EncodeRune r = [r] := by
  simp [EncodeRune, h]

/-- The encoding of a rune from U+0080 to U+07FF, as arithmetic. -/
theorem encodeRune_two (r : Nat) (h1 : 0x80 ≤ r) (h2 : r ≤ 0x7FF) :
    EncodeRune r = [192 + r / 64, 128 + r % 64] := by
  have hn : ¬ r ≤ 0x7F := by omega
  have e1 : r >>> 6 = r / 64 := Nat.shiftRight_eq_div_pow r 6
  have e2 : r &&& 0x3F = r % 64 := Nat.and_pow_two_sub_one_eq_mod r 6
  have e3 : 0xC0 ||| r / 64 = 192 + r / 64 := or_arith 6 3 (r / 64) (by norm_num; omega)
  have e4 : 0x80 ||| r % 64 = 128 + r % 64 := or_arith 7 1 (r % 64) (by norm_num; omega)
  simp only [EncodeRune, hn, h2, if_true, if_false, e1, e2, e3, e4]

/-- The encoding of a rune from U+0800 to U+FFFF that is no surrogate, as arithmetic. -/
theorem encodeRune_three (r : Nat) (h1 : 0x800 ≤ r) (h2 : r ≤ 0xFFFF)
    (h3 : r < 0xD800 ∨ 0xDFFF < r) :
    EncodeRune r = [224 + r / 4096, 128 + r / 64 % 64, 128 + r % 64] := by
  have hn : ¬ r ≤ 0x7F := by omega
  have hn2 : ¬ r ≤ 0x7FF := by omega
  have hn3 : ¬ (MaxRune < r ∨ 0xD800 ≤ r ∧ r ≤ 0xDFFF) := by
    simp only [MaxRune]
    omega
  have e0 : r >>> 12 = r / 4096 := Nat.shiftRight_eq_div_pow r 12
  have e1 : r >>> 6 = r / 64 := Nat.shiftRight_eq_div_pow r 6
  have e2 : r &&& 0x3F = r % 64 := Nat.and_pow_two_sub_one_eq_mod r 6
  have e2' : r / 64 &&& 0x3F = r / 64 % 64 := Nat.and_pow_two_sub_one_eq_mod (r / 64) 6
  have e3 : 0xE0 ||| r / 4096 = 224 + r / 4096 := or_arith 5 7 (r / 4096) (by norm_num; omega)
  have e4 : 0x80 ||| r % 64 = 128 + r % 64 := or_arith 7 1 (r % 64) (by norm_num; omega)
  have e5 : 0x80 ||| r / 64 % 64 = 128 + r / 64 % 64 :=
    or_arith 7 1 (r / 64 % 64) (by norm_num; omega)
  simp only [EncodeRune, hn, hn2, hn3, h2, if_true, if_false, e0, e1, e2, e2', e3, e4, e5]

/-- Decoding reads back an encoded rune of the basic plane, whatever follows it. -/
theorem decodeRune_encodeRune (r : Nat) (h2 : r ≤ 0xFFFF) (h3 : r < 0xD800 ∨ 0xDFFF < r)
    (rest : List Nat) :
    DecodeRune (EncodeRune r ++ rest) = (r, (EncodeRune r).length)
    ∧ 1 ≤ (EncodeRune r).length := by
  by_cases c1 : r ≤ 0x7F
  · rw [encodeRune_one r c1]
    exact ⟨decodeRune_ascii r rest (by omega), by simp⟩
  by_cases c2 : r ≤ 0x7FF
  · rw [encodeRune_two r (by omega) c2]
    refine ⟨?_, by simp⟩
    have hv : valid2 (192 + r / 64) (128 + r % 64) := by
      simp only [valid2]
      omega
    rw [List.cons_append, List.cons_append, decodeRune_two _ _ _ hv]
    simp only [List.length_cons, List.length_nil, Prod.mk.injEq, and_true]
    omega
  · rw [encodeRune_three r (by omega) h2 h3]
    refine ⟨?_, by simp⟩
    have hv : valid3 (224 + r / 4096) (128 + r / 64 % 64) (128 + r % 64) := by
      simp only [valid3]
      omega
    rw [List.cons_append, List.cons_append, List.cons_append, decodeRune_three _ _ _ _ hv]
    simp only [List.length_cons, List.length_nil, Prod.mk.injEq, and_true]
    omega

/-- A string whose first rune is white space starts with the encoding of that rune. -/
theorem decodeRune_space (a : List Nat) (r n : Nat) (h : DecodeRune a = (r, n))
    (hs : IsSpace r = true) :
    a = EncodeRune r ++ a.drop n ∧ n = (EncodeRune r).length := by
  rcases decodeRune_cases a with rfl | ⟨s0, t, rfl, h0⟩ | ⟨s0, t, rfl, h0, he⟩
    | ⟨s0, s1, t, rfl, hv⟩ | ⟨s0, s1, s2, t, rfl, hv⟩ | ⟨s0, s1, s2, s3, t, rfl, hv⟩
  · simp only [DecodeRune, Prod.mk.injEq] at h
    rw [← h.1, isSpace_runeError] at hs
    exact absurd hs (by decide)
  · rw [decodeRune_ascii s0 t h0, Prod.mk.injEq] at h
    obtain ⟨rfl, rfl⟩ := h
    rw [encodeRune_one s0 (by omega)]
    simp
  · rw [he, Prod.mk.injEq] at h
    rw [← h.1, isSpace_runeError] at hs
    exact absurd hs (by decide)
  · rw [decodeRune_two s0 s1 t hv, Prod.mk.injEq] at h
    obtain ⟨hr, rfl⟩ := h
    simp only [valid2] at hv
    rw [encodeRune_two r (by omega) (by omega)]
    simp only [List.drop_succ_cons, List.drop_zero, List.cons_append, List.nil_append,
      List.length_cons, List.length_nil, List.cons.injEq, and_true]
    omega
  · rw [decodeRune_three s0 s1 s2 t hv, Prod.mk.injEq] at h
    obtain ⟨hr, rfl⟩ := h
    simp only [valid3] at hv
    rw [encodeRune_three r (by omega) (by omega) (by omega)]
    simp only [List.drop_succ_cons, List.drop_zero, List.cons_append, List.nil_append,
      List.length_cons, List.length_nil, List.cons.injEq, and_true]
    omega
  · rw [decodeRune_four s0 s1 s2 s3 t hv, Prod.mk.injEq] at h
    obtain ⟨hr, rfl⟩ := h
    simp only [valid4] at hv
    have := isSpace_le r hs
    omega

/-- Decoding reads back an encoded white-space rune, whatever follows it. -/
theorem decodeRune_encode_space (r : Nat) (h : IsSpace r = true) (rest : List Nat) :
    DecodeRune (EncodeRune r ++ rest) = (r, (EncodeRune r).length)
    ∧ 1 ≤ (EncodeRune r).length := by
  have := isSpace_le r h
  exact decodeRune_encodeRune r (by omega) (by omega) rest

/-- The width of the first rune of a non-empty string is at least 1 and at most its length. -/
theorem decodeRune_size (a : List Nat) (ha : a ≠ []) :
    1 ≤ (DecodeRune a).2 ∧ (DecodeRune a).2 ≤ a.length := by
  rcases decodeRune_cases a with rfl | ⟨s0, t, rfl, h0⟩ | ⟨s0, t, rfl, h0, he⟩
    | ⟨s0, s1, t, rfl, hv⟩ | ⟨s0, s1, s2, t, rfl, hv⟩ | ⟨s0, s1, s2, s3, t, rfl, hv⟩
  · exact absurd rfl ha
  · rw [decodeRune_ascii s0 t h0]; simp
  · rw [he]; simp
  · rw [decodeRune_two s0 s1 t hv]; simp
  · rw [decodeRune_three s0 s1 s2 t hv]; simp
  · rw [decodeRune_four s0 s1 s2 s3 t hv]; simp

/-- The backward scan never moves forward. -/
theorem lastRuneStart_le (s : List Nat) (lim n : Nat) : lastRuneStart s lim n ≤ n := by
  induction n with
  | zero => simp [lastRuneStart]
  | succ n ih =>
    simp only [lastRuneStart]
    split_ifs <;> omega

/-- The last rune of a non-empty string: its width, and that it is the first rune of the bytes it covers. -/
theorem decodeLastRune_spec (t : List Nat) (ht : t ≠ []) :
    1 ≤ (DecodeLastRune t).2 ∧ (DecodeLastRune t).2 ≤ t.length
    ∧ (DecodeRune (t.drop (t.length - (DecodeLastRune t).2))).2 = (DecodeLastRune t).2
    ∧ (IsSpace (DecodeLastRune t).1 = true →
        DecodeRune (t.drop (t.length - (DecodeLastRune t).2)) = DecodeLastRune t) := by
  obtain ⟨init, x, rfl⟩ : ∃ init x, t = init ++ [x] := by
    rcases List.eq_nil_or_concat t with h | ⟨L, b, h⟩
    · exact absurd h ht
    · exact ⟨L, b, by rw [h, List.concat_eq_append]⟩
  have hlen : (init ++ [x]).length = init.length + 1 := by simp
  have hget : (init ++ [x]).getD init.length 0 = x := by
    simp [List.getD_eq_getElem?_getD]
  have hdrop : (init ++ [x]).drop init.length = [x] := by simp
  have hsingle : (DecodeRune [x]).2 = 1 := by
    have := decodeRune_size [x] (by simp)
    simp only [List.length_cons, List.length_nil] at this
    omega
  by_cases hx : x < 0x80
  · have hd : DecodeLastRune (init ++ [x]) = (x, 1) := by
      simp [DecodeLastRune, hget, RuneSelf, hx]
    rw [hd]
    simp only [hlen, Nat.add_sub_cancel, hdrop]
    exact ⟨le_refl _, by omega, hsingle, fun _ => decodeRune_ascii x [] hx⟩
  · by_cases hm : lastRuneStart (init ++ [x]) (init.length + 1 - UTFMax) init.length
        + (DecodeRune ((init ++ [x]).drop
            (lastRuneStart (init ++ [x]) (init.length + 1 - UTFMax) init.length))).2
        = init.length + 1
    · have hd : DecodeLastRune (init ++ [x]) = DecodeRune ((init ++ [x]).drop
            (lastRuneStart (init ++ [x]) (init.length + 1 - UTFMax) init.length)) := by
        simp [DecodeLastRune, hget, RuneSelf, hx, hm]
      have hle := lastRuneStart_le (init ++ [x]) (init.length + 1 - UTFMax) init.length
      have hne : (init ++ [x]).drop
          (lastRuneStart (init ++ [x]) (init.length + 1 - UTFMax) init.length) ≠ [] := by
        intro h
        have := congrArg List.length h
        simp at this
        omega
      have hsz := decodeRune_size _ hne
      rw [hd, hlen]
      have e : init.length + 1 - (DecodeRune ((init ++ [x]).drop
            (lastRuneStart (init ++ [x]) (init.length + 1 - UTFMax) init.length))).2
          = lastRuneStart (init ++ [x]) (init.length + 1 - UTFMax) init.length := by omega
      rw [e]
      exact ⟨hsz.1, by omega, rfl, fun _ => rfl⟩
    · have hd : DecodeLastRune (init ++ [x]) = (RuneError, 1) := by
        simp [DecodeLastRune, hget, RuneSelf, hx, hm]
      rw [hd]
      simp only [hlen, Nat.add_sub_cancel, hdrop]
      refine ⟨le_refl _, by omega, hsingle, fun h => ?_⟩
      rw [isSpace_runeError] at h
      exact absurd h (by decide)

/-! ## Theorems: white space -/

/-- The empty string holds white space only. -/
theorem isWhiteSpace_nil : IsWhiteSpace [] := ⟨[], by simp, rfl⟩

/-- White space followed by white space is white space. -/
theorem isWhiteSpace_append (a b : List Nat) (ha : IsWhiteSpace a) (hb : IsWhiteSpace b) :
    IsWhiteSpace (a ++ b) := by
  obtain ⟨ra, ha1, rfl⟩ := ha
  obtain ⟨rb, hb1, rfl⟩ := hb
  refine ⟨ra ++ rb, ?_, by simp [encodeRunes]⟩
  intro r hr
  rcases List.mem_append.1 hr with h | h
  · exact ha1 r h
  · exact hb1 r h

/-- The encoding of a white-space rune is white space. -/
theorem isWhiteSpace_encodeRune (r : Nat) (h : IsSpace r = true) :
    IsWhiteSpace (EncodeRune r) :=
  ⟨[r], by simpa using h, by simp [encodeRunes]⟩

/-- The bytes of the table `asciiSpace` are ASCII and white space. -/
theorem asciiSpace_isSpace (c : Nat) (h : asciiSpace c = true) : c ≤ 0x7F ∧ IsSpace c = true := by
  have hc : c = 9 ∨ c = 10 ∨ c = 11 ∨ c = 12 ∨ c = 13 ∨ c = 32 := by
    simpa [asciiSpace, or_assoc] using h
  rcases hc with rfl | rfl | rfl | rfl | rfl | rfl <;> decide

/-- On ASCII, `unicode.IsSpace` is the table `asciiSpace`. -/
theorem isSpace_ascii (c : Nat) (hc : c < 0x80) : IsSpace c = asciiSpace c := by
  have h1 : c ≤ 0xFF := by omega
  have h2 : (c == 0x85) = false := by simp; omega
  have h3 : (c == 0xA0) = false := by simp; omega
  simp [IsSpace, asciiSpace, h1, h2, h3]

/-- A run of ASCII white space is white space. -/
theorem isWhiteSpace_ascii (l : List Nat) (h : ∀ c ∈ l, asciiSpace c = true) :
    IsWhiteSpace l := by
  induction l with
  | nil => exact isWhiteSpace_nil
  | cons c rest ih =>
    have hc := asciiSpace_isSpace c (h c (by simp))
    have h1 : IsWhiteSpace [c] := by
      have := isWhiteSpace_encodeRune c hc.2
      rwa [encodeRune_one c hc.1] at this
    exact isWhiteSpace_append [c] rest h1 (ih (fun d hd => h d (by simp [hd])))

/-- White space does not start with a continuation byte. -/
theorem isWhiteSpace_head (y : List Nat) (h : IsWhiteSpace y) :
    y = [] ∨ ∃ b t, y = b :: t ∧ (b < 0x80 ∨ 0xBF < b) := by
  obtain ⟨rs, hrs, rfl⟩ := h
  rcases rs with _ | ⟨r, rs⟩
  · exact Or.inl rfl
  · right
    have hr := hrs r (by simp)
    have hle := isSpace_le r hr
    simp only [encodeRunes, List.flatMap_cons]
    by_cases c1 : r ≤ 0x7F
    · rw [encodeRune_one r c1]
      exact ⟨r, _, rfl, by omega⟩
    by_cases c2 : r ≤ 0x7FF
    · rw [encodeRune_two r (by omega) c2]
      exact ⟨_, _, rfl, by omega⟩
    · rw [encodeRune_three r (by omega) (by omega) (by omega)]
      exact ⟨_, _, rfl, by omega⟩

/-- The width of a rune that covers a whole string stays the same when white space follows. -/
theorem decodeRune_append_size (x y : List Nat) (hx : x ≠ [])
    (hsz : (DecodeRune x).2 = x.length)
    (hy : y = [] ∨ ∃ b t, y = b :: t ∧ (b < 0x80 ∨ 0xBF < b)) :
    (DecodeRune (x ++ y)).2 = x.length := by
  rcases decodeRune_cases x with rfl | ⟨s0, t, rfl, h0⟩ | ⟨s0, t, rfl, h0, he⟩
    | ⟨s0, s1, t, rfl, hv⟩ | ⟨s0, s1, s2, t, rfl, hv⟩ | ⟨s0, s1, s2, s3, t, rfl, hv⟩
  · exact absurd rfl hx
  · rw [List.cons_append, decodeRune_ascii s0 _ h0]
    rw [decodeRune_ascii s0 t h0] at hsz
    exact hsz
  · rw [he] at hsz
    have ht : t = [] := by
      simp only [List.length_cons] at hsz
      exact List.length_eq_zero.1 (by omega)
    subst ht
    simp only [List.cons_append, List.nil_append, List.length_cons, List.length_nil]
    rcases decodeRune_cases (s0 :: y) with h | ⟨a0, u, h, k0⟩ | ⟨a0, u, h, k0, ke⟩
      | ⟨a0, a1, u, h, kv⟩ | ⟨a0, a1, a2, u, h, kv⟩ | ⟨a0, a1, a2, a3, u, h, kv⟩
    · exact absurd h (by simp)
    · simp only [List.cons.injEq] at h
      omega
    · rw [ke]
    · simp only [List.cons.injEq] at h
      obtain ⟨rfl, rfl⟩ := h
      simp only [valid2] at kv
      rcases hy with hy | ⟨b, w, hy, hb⟩
      · exact absurd hy (by simp)
      · simp only [List.cons.injEq] at hy
        omega
    · simp only [List.cons.injEq] at h
      obtain ⟨rfl, rfl⟩ := h
      simp only [valid3] at kv
      rcases hy with hy | ⟨b, w, hy, hb⟩
      · exact absurd hy (by simp)
      · simp only [List.cons.injEq] at hy
        omega
    · simp only [List.cons.injEq] at h
      obtain ⟨rfl, rfl⟩ := h
      simp only [valid4] at kv
      rcases hy with hy | ⟨b, w, hy, hb⟩
      · exact absurd hy (by simp)
      · simp only [List.cons.injEq] at hy
        omega
  · rw [List.cons_append, List.cons_append, decodeRune_two s0 s1 _ hv]
    rw [decodeRune_two s0 s1 t hv] at hsz
    exact hsz
  · rw [List.cons_append, List.cons_append, List.cons_append, decodeRune_three s0 s1 s2 _ hv]
    rw [decodeRune_three s0 s1 s2 t hv] at hsz
    exact hsz
  · rw [List.cons_append, List.cons_append, List.cons_append, List.cons_append,
      decodeRune_four s0 s1 s2 s3 _ hv]
    rw [decodeRune_four s0 s1 s2 s3 t hv] at hsz
    exact hsz

/-! ## Theorems: strings.TrimSpace -/

/-- The loop of `indexFunc` for `IsSpace`: what it has passed is white space, and it stops at a rune that is not. -/
theorem indexFuncLoop_spec (s : List Nat) (fuel : Nat) :
    ∀ i, s.length ≤ i + fuel → i ≤ s.length → IsWhiteSpace (s.take i) →
      (∀ j, indexFuncLoop s IsSpace false fuel i = some j →
        j ≤ s.length ∧ IsWhiteSpace (s.take j) ∧ startsWithSpace (s.drop j) = false)
      ∧ (indexFuncLoop s IsSpace false fuel i = none → IsWhiteSpace s) := by
  induction fuel with
  | zero =>
    intro i h1 h2 hw
    have e : i = s.length := by omega
    subst e
    simp only [indexFuncLoop, List.take_length] at hw ⊢
    exact ⟨fun j hj => absurd hj (by simp), fun _ => hw⟩
  | succ fuel ih =>
    intro i h1 h2 hw
    by_cases hi : s.length ≤ i
    · have e : i = s.length := by omega
      subst e
      simp only [indexFuncLoop, le_refl, if_true, List.take_length] at hw ⊢
      exact ⟨fun j hj => absurd hj (by simp), fun _ => hw⟩
    · rcases hrn : DecodeRune (s.drop i) with ⟨r, n⟩
      have hne : s.drop i ≠ [] := by
        intro h
        have := congrArg List.length h
        simp at this
        omega
      have hsz := decodeRune_size _ hne
      rw [hrn] at hsz
      simp only at hsz
      by_cases hsp : IsSpace r = false
      · simp only [indexFuncLoop, hi, if_false, hrn, hsp, if_true]
        refine ⟨fun j hj => ?_, fun h => absurd h (by simp)⟩
        simp only [Option.some.injEq] at hj
        subst hj
        refine ⟨h2, hw, ?_⟩
        simp only [startsWithSpace, hrn, hsp]
      · have hsp' : IsSpace r = true := by
          simpa using hsp
        obtain ⟨hd, hn⟩ := decodeRune_space (s.drop i) r n hrn hsp'
        have hlen : (s.drop i).length = s.length - i := by simp
        have htk : (s.drop i).take n = EncodeRune r := by
          have h3 := congrArg (List.take n) hd
          rwa [List.take_left' hn.symm] at h3
        have htake : s.take (i + n) = s.take i ++ EncodeRune r := by
          rw [List.take_add, htk]
        have hw' : IsWhiteSpace (s.take (i + n)) := by
          rw [htake]
          exact isWhiteSpace_append _ _ hw (isWhiteSpace_encodeRune _ hsp')
        have := ih (i + n) (by omega) (by omega) hw'
        simp only [indexFuncLoop, hi, if_false, hrn, hsp, if_false]
        exact this

/-- The empty string does not start with white space. -/
theorem startsWithSpace_nil : startsWithSpace [] = false := by decide

/-- The empty string does not end with white space. -/
theorem endsWithSpace_nil : endsWithSpace [] = false := by decide

/-- Function `TrimLeftFunc` with `IsSpace` removes a run of white space and leaves no leading white space. -/
theorem trimLeftFunc_spec (s : List Nat) :
    ∃ pre, IsWhiteSpace pre ∧ s = pre ++ TrimLeftFunc s IsSpace
      ∧ startsWithSpace (TrimLeftFunc s IsSpace) = false := by
  have h := indexFuncLoop_spec s s.length 0 (by omega) (by omega) (by simpa using isWhiteSpace_nil)
  unfold TrimLeftFunc indexFunc
  cases hc : indexFuncLoop s IsSpace false s.length 0 with
  | none => exact ⟨s, h.2 hc, by simp, startsWithSpace_nil⟩
  | some j =>
    obtain ⟨_, hw, hs⟩ := h.1 j hc
    exact ⟨s.take j, hw, (List.take_append_drop j s).symm, hs⟩

/-- A suffix, cut at a later offset. -/
theorem drop_eq_take_drop_append (s : List Nat) (j k : Nat) (hjk : j ≤ k) :
    s.drop j = (s.take k).drop j ++ s.drop k := by
  conv_lhs => rw [← List.take_append_drop k s]
  by_cases hk : k ≤ s.length
  · rw [List.drop_append_of_le_length (by simp; omega)]
  · have h1 : s.take k = s := List.take_of_length_le (by omega)
    have h2 : s.drop k = [] := List.drop_of_length_le (by omega)
    simp [h1, h2]

/-- The loop of `lastIndexFunc` for `IsSpace`: what it has passed is white space, and it stops at a rune that is not. -/
theorem lastIndexFuncLoop_spec (s : List Nat) (fuel : Nat) :
    ∀ i, i ≤ fuel → i ≤ s.length → IsWhiteSpace (s.drop i) →
      (∀ j, lastIndexFuncLoop s IsSpace false fuel i = some j →
        ∃ k, 0 < k ∧ k ≤ s.length ∧ IsWhiteSpace (s.drop k)
          ∧ j = k - (DecodeLastRune (s.take k)).2
          ∧ endsWithSpace (s.take k) = false)
      ∧ (lastIndexFuncLoop s IsSpace false fuel i = none → IsWhiteSpace s) := by
  induction fuel with
  | zero =>
    intro i h1 h2 hw
    have e : i = 0 := by omega
    subst e
    simp only [lastIndexFuncLoop, List.drop_zero] at hw ⊢
    exact ⟨fun j hj => absurd hj (by simp), fun _ => hw⟩
  | succ fuel ih =>
    intro i h1 h2 hw
    by_cases hi : i = 0
    · subst hi
      simp only [lastIndexFuncLoop, if_true, List.drop_zero] at hw ⊢
      exact ⟨fun j hj => absurd hj (by simp), fun _ => hw⟩
    · have hlen : (s.take i).length = i := by
        rw [List.length_take]
        omega
      have hne : s.take i ≠ [] := by
        intro h
        rw [h] at hlen
        exact hi hlen.symm
      obtain ⟨q1, q2, q3, q4⟩ := decodeLastRune_spec (s.take i) hne
      rw [hlen] at q2 q3 q4
      rcases hrn : DecodeLastRune (s.take i) with ⟨r, n⟩
      rw [hrn] at q1 q2 q3 q4
      simp only at q1 q2 q3 q4
      by_cases hsp : IsSpace r = false
      · simp only [lastIndexFuncLoop, hi, if_false, hrn, hsp, if_true]
        refine ⟨fun j hj => ?_, fun h => absurd h (by simp)⟩
        simp only [Option.some.injEq] at hj
        refine ⟨i, by omega, h2, hw, ?_, ?_⟩
        · rw [hrn]
          exact hj.symm
        · simp only [endsWithSpace, hrn, hsp]
      · have hsp' : IsSpace r = true := by
          simpa using hsp
        have hdec := q4 hsp'
        obtain ⟨hd, hn⟩ := decodeRune_space _ r n hdec hsp'
        have hl : ((s.take i).drop (i - n)).length = n := by
          simp only [List.length_drop, hlen]
          omega
        have hnil : ((s.take i).drop (i - n)).drop n = [] := List.drop_of_length_le (by omega)
        rw [hnil, List.append_nil] at hd
        have hw' : IsWhiteSpace (s.drop (i - n)) := by
          rw [drop_eq_take_drop_append s _ i (by omega), hd]
          exact isWhiteSpace_append _ _ (isWhiteSpace_encodeRune _ hsp') hw
        have := ih (i - n) (by omega) (by omega) hw'
        simp only [lastIndexFuncLoop, hi, if_false, hrn, hsp, if_false]
        exact this

/-- The byte at an offset is the head of the suffix from there. -/
theorem getD_of_drop_eq_cons (s : List Nat) (j b : Nat) (rest : List Nat)
    (h : s.drop j = b :: rest) : s.getD j 0 = b := by
  have h1 : (s.drop j)[0]? = some b := by rw [h]; simp
  rw [List.getElem?_drop] at h1
  simp only [Nat.add_zero] at h1
  simp [List.getD_eq_getElem?_getD, h1]

/-- Function `TrimRightFunc` with `IsSpace` removes a run of white space and leaves no trailing white space. -/
theorem trimRightFunc_spec (s : List Nat) :
    ∃ post, IsWhiteSpace post ∧ s = TrimRightFunc s IsSpace ++ post
      ∧ endsWithSpace (TrimRightFunc s IsSpace) = false := by
  have h := lastIndexFuncLoop_spec s s.length s.length (le_refl _) (le_refl _)
    (by simpa using isWhiteSpace_nil)
  unfold TrimRightFunc lastIndexFunc
  cases hc : lastIndexFuncLoop s IsSpace false s.length s.length with
  | none => exact ⟨s, h.2 hc, by simp, by simpa using endsWithSpace_nil⟩
  | some j =>
    obtain ⟨k, hk0, hk, hw, hj, he⟩ := h.1 j hc
    have hlen : (s.take k).length = k := by
      rw [List.length_take]
      omega
    have hne : s.take k ≠ [] := by
      intro h0
      rw [h0] at hlen
      simp at hlen
      omega
    obtain ⟨q1, q2, q3, _⟩ := decodeLastRune_spec (s.take k) hne
    rw [hlen] at q2 q3
    rw [← hj] at q3
    have hxl : ((s.take k).drop j).length = (DecodeLastRune (s.take k)).2 := by
      simp only [List.length_drop, hlen]
      omega
    have hxne : (s.take k).drop j ≠ [] := by
      intro h0
      rw [h0] at hxl
      simp at hxl
      omega
    have hsplit := drop_eq_take_drop_append s j k (by omega)
    have hwid : (DecodeRune (s.drop j)).2 = (DecodeLastRune (s.take k)).2 := by
      rw [hsplit, ← hxl]
      exact decodeRune_append_size _ _ hxne (by rw [q3, hxl]) (isWhiteSpace_head _ hw)
    have hres : (if RuneSelf ≤ s.getD j 0 then s.take (j + (DecodeRune (s.drop j)).2)
        else s.take (j + 1)) = s.take k := by
      split_ifs with hb
      · rw [hwid]
        congr 1
        omega
      · obtain ⟨b, x', hx⟩ : ∃ b x', (s.take k).drop j = b :: x' := by
          cases hxx : (s.take k).drop j with
          | nil => exact absurd hxx hxne
          | cons b x' => exact ⟨b, x', rfl⟩
        have hb' : s.getD j 0 = b := by
          apply getD_of_drop_eq_cons s j b (x' ++ s.drop k)
          rw [hsplit, hx]
          rfl
        have hb2 : b < 0x80 := by
          simp only [RuneSelf] at hb
          omega
        have h1 : (DecodeLastRune (s.take k)).2 = 1 := by
          rw [← q3, hx, decodeRune_ascii b x' hb2]
        congr 1
        omega
    simp only [hres]
    exact ⟨s.drop k, hw, (List.take_append_drop k s).symm, he⟩

/-- A string that does not start with white space has no prefix that does. -/
theorem startsWithSpace_of_append (a b : List Nat) (h : startsWithSpace (a ++ b) = false) :
    startsWithSpace a = false := by
  rcases hrn : DecodeRune a with ⟨r, n⟩
  by_contra hc
  have hc' : IsSpace r = true := by
    simpa [startsWithSpace, hrn] using hc
  obtain ⟨hd, hn⟩ := decodeRune_space a r n hrn hc'
  have h2 := (decodeRune_encode_space r hc' (a.drop n ++ b)).1
  rw [← List.append_assoc, ← hd] at h2
  simp only [startsWithSpace, h2] at h
  rw [hc'] at h
  exact absurd h (by decide)

/-- The first loop of `TrimSpace` passes ASCII white space only, and when it ends at an ASCII byte that byte is not white space. -/
theorem trimSpaceStart_spec (s : List Nat) :
    ∀ k, ∃ j, (trimSpaceStart s k).1 = k + j ∧ j ≤ s.length
      ∧ (∀ c ∈ s.take j, asciiSpace c = true)
      ∧ ((trimSpaceStart s k).2 = false →
          s.drop j = [] ∨ ∃ c t, s.drop j = c :: t ∧ c < 0x80 ∧ asciiSpace c = false) := by
  induction s with
  | nil =>
    intro k
    exact ⟨0, by simp [trimSpaceStart], by simp, by simp, fun _ => Or.inl rfl⟩
  | cons c rest ih =>
    intro k
    by_cases h1 : RuneSelf ≤ c
    · exact ⟨0, by simp [trimSpaceStart, h1], by simp, by simp,
        by simp [trimSpaceStart, h1]⟩
    · by_cases h2 : asciiSpace c = true
      · obtain ⟨j, e1, e2, e3, e4⟩ := ih (k + 1)
        refine ⟨j + 1, ?_, by simp; omega, ?_, ?_⟩
        · simp only [trimSpaceStart, h1, if_false, h2, if_true, e1]
          omega
        · intro d hd
          simp only [List.take_succ_cons, List.mem_cons] at hd
          rcases hd with rfl | hd
          · exact h2
          · exact e3 d hd
        · intro hf
          simp only [trimSpaceStart, h1, if_false, h2, if_true] at hf
          simpa using e4 hf
      · refine ⟨0, by simp [trimSpaceStart, h1, h2], by simp, by simp, fun _ => ?_⟩
        right
        simp only [RuneSelf] at h1
        exact ⟨c, rest, rfl, by omega, by simpa using h2⟩

/-- One more byte of a prefix. -/
theorem take_succ_getD (s : List Nat) (n : Nat) (h : n < s.length) :
    s.take (n + 1) = s.take n ++ [s.getD n 0] := by
  rw [List.take_succ, List.getD_eq_getElem?_getD, List.getElem?_eq_getElem h]
  rfl

/-- The second loop of `TrimSpace` passes ASCII white space only, and when it ends at an ASCII byte that byte is not white space. -/
theorem trimSpaceStop_spec (s : List Nat) (start : Nat) :
    ∀ stop, stop ≤ s.length → start ≤ stop →
      (trimSpaceStop s start stop).1 ≤ stop ∧ start ≤ (trimSpaceStop s start stop).1
      ∧ (∀ c ∈ (s.take stop).drop (trimSpaceStop s start stop).1, asciiSpace c = true)
      ∧ ((trimSpaceStop s start stop).2 = false →
          (trimSpaceStop s start stop).1 = start
          ∨ (0 < (trimSpaceStop s start stop).1
              ∧ s.getD ((trimSpaceStop s start stop).1 - 1) 0 < 0x80
              ∧ asciiSpace (s.getD ((trimSpaceStop s start stop).1 - 1) 0) = false)) := by
  intro stop
  induction stop with
  | zero =>
    intro _ h2
    have e : start = 0 := by omega
    simp [trimSpaceStop, e]
  | succ stop ih =>
    intro h1 h2
    have hdef : trimSpaceStop s start (stop + 1)
        = if start < stop + 1 then
            (if RuneSelf ≤ s.getD stop 0 then (stop + 1, true)
             else if asciiSpace (s.getD stop 0) = true then trimSpaceStop s start stop
             else (stop + 1, false))
          else (stop + 1, false) := rfl
    have hnil : ∀ d, d ∈ (s.take (stop + 1)).drop (stop + 1) → asciiSpace d = true := by
      intro d hd
      rw [List.drop_of_length_le (by rw [List.length_take]; omega)] at hd
      exact absurd hd (by simp)
    by_cases hlt : start < stop + 1
    · by_cases hc : RuneSelf ≤ s.getD stop 0
      · have hv : trimSpaceStop s start (stop + 1) = (stop + 1, true) := by
          rw [hdef, if_pos hlt, if_pos hc]
        rw [hv]
        exact ⟨le_refl _, by omega, hnil, fun h => absurd h (by simp)⟩
      · by_cases hsp : asciiSpace (s.getD stop 0) = true
        · obtain ⟨e1, e2, e3, e4⟩ := ih (by omega) (by omega)
          have hv : trimSpaceStop s start (stop + 1) = trimSpaceStop s start stop := by
            rw [hdef, if_pos hlt, if_neg hc, if_pos hsp]
          rw [hv]
          refine ⟨by omega, e2, ?_, e4⟩
          intro d hd
          rw [take_succ_getD s stop (by omega),
            List.drop_append_of_le_length (by rw [List.length_take]; omega)] at hd
          rcases List.mem_append.1 hd with hd | hd
          · exact e3 d hd
          · simp only [List.mem_singleton] at hd
            rw [hd]
            exact hsp
        · have hv : trimSpaceStop s start (stop + 1) = (stop + 1, false) := by
            rw [hdef, if_pos hlt, if_neg hc, if_neg hsp]
          rw [hv]
          refine ⟨le_refl _, by omega, hnil, fun _ => Or.inr ⟨by omega, ?_, ?_⟩⟩
          · simp only [RuneSelf] at hc
            simp only [Nat.add_sub_cancel]
            omega
          · simpa using hsp
    · have hv : trimSpaceStop s start (stop + 1) = (stop + 1, false) := by
        rw [hdef, if_neg hlt]
      rw [hv]
      exact ⟨le_refl _, by omega, hnil, fun _ => Or.inl (by omega)⟩

/-- A last byte below `RuneSelf` is the last rune. -/
theorem decodeLastRune_ascii (init : List Nat) (x : Nat) (hx : x < 0x80) :
    DecodeLastRune (init ++ [x]) = (x, 1) := by
  have hget : (init ++ [x]).getD init.length 0 = x := by
    simp [List.getD_eq_getElem?_getD]
  simp [DecodeLastRune, hget, RuneSelf, hx]

/-- A string that starts with an ASCII byte outside `asciiSpace` does not start with white space. -/
theorem startsWithSpace_cons_ascii (c : Nat) (t : List Nat) (hc : c < 0x80)
    (hs : asciiSpace c = false) : startsWithSpace (c :: t) = false := by
  simp only [startsWithSpace, decodeRune_ascii c t hc, isSpace_ascii c hc, hs]

/-- Function `strings.TrimSpace` removes white space only, from both ends, and leaves none at either end. -/
theorem trimSpace_spec (s : List Nat) :
    ∃ pre post, IsWhiteSpace pre ∧ IsWhiteSpace post ∧ s = pre ++ TrimSpace s ++ post
      ∧ startsWithSpace (TrimSpace s) = false ∧ endsWithSpace (TrimSpace s) = false := by
  obtain ⟨j, hj1, hj2, hj3, hj4⟩ := trimSpaceStart_spec s 0
  rw [Nat.zero_add] at hj1
  have hpre : IsWhiteSpace (s.take j) := isWhiteSpace_ascii _ hj3
  unfold TrimSpace
  simp only [hj1]
  by_cases hf1 : (trimSpaceStart s 0).2 = true
  · simp only [hf1, if_true]
    obtain ⟨pa, hpa, hsa, hla⟩ := trimLeftFunc_spec (s.drop j)
    obtain ⟨pb, hpb, hsb, hlb⟩ := trimRightFunc_spec (TrimLeftFunc (s.drop j) IsSpace)
    refine ⟨s.take j ++ pa, pb, isWhiteSpace_append _ _ hpre hpa, hpb, ?_, ?_, hlb⟩
    · simp only [TrimFunc]
      conv_lhs => rw [← List.take_append_drop j s, hsa, hsb]
      simp only [List.append_assoc]
    · simp only [TrimFunc]
      rw [hsb] at hla
      exact startsWithSpace_of_append _ _ hla
  · have hf1' : (trimSpaceStart s 0).2 = false := by simpa using hf1
    have hstart := hj4 hf1'
    obtain ⟨k1, k2, k3, k4⟩ := trimSpaceStop_spec s j s.length (le_refl _) hj2
    rw [List.take_length] at k3
    have hpost : IsWhiteSpace (s.drop (trimSpaceStop s j s.length).1) :=
      isWhiteSpace_ascii _ k3
    have hsplit : s = s.take j ++ (s.take (trimSpaceStop s j s.length).1).drop j
        ++ s.drop (trimSpaceStop s j s.length).1 := by
      conv_lhs => rw [← List.take_append_drop (trimSpaceStop s j s.length).1 s]
      congr 1
      conv_lhs => rw [← List.take_append_drop j (s.take (trimSpaceStop s j s.length).1)]
      rw [List.take_take, Nat.min_eq_left k2]
    have hM : startsWithSpace ((s.take (trimSpaceStop s j s.length).1).drop j) = false := by
      rcases hstart with h0 | ⟨c, t, hct, hc1, hc2⟩
      · have : (s.take (trimSpaceStop s j s.length).1).drop j = [] := by
          have hl : s.length ≤ j := by
            have := congrArg List.length h0
            simp at this
            omega
          exact List.drop_of_length_le (by rw [List.length_take]; omega)
        rw [this]
        exact startsWithSpace_nil
      · have hd := drop_eq_take_drop_append s j (trimSpaceStop s j s.length).1 k2
        rw [hct] at hd
        cases hm : (s.take (trimSpaceStop s j s.length).1).drop j with
        | nil => exact startsWithSpace_nil
        | cons m mt =>
          rw [hm] at hd
          simp only [List.cons_append, List.cons.injEq] at hd
          rw [← hd.1]
          exact startsWithSpace_cons_ascii c mt hc1 hc2
    simp only [hf1', Bool.false_eq_true, if_false]
    by_cases hf2 : (trimSpaceStop s j s.length).2 = true
    · simp only [hf2, if_true]
      obtain ⟨pb, hpb, hsb, hlb⟩ :=
        trimRightFunc_spec ((s.take (trimSpaceStop s j s.length).1).drop j)
      refine ⟨s.take j, pb ++ s.drop (trimSpaceStop s j s.length).1, hpre,
        isWhiteSpace_append _ _ hpb hpost, ?_, ?_, hlb⟩
      · conv_lhs => rw [hsplit, hsb]
        simp only [List.append_assoc]
      · rw [hsb] at hM
        exact startsWithSpace_of_append _ _ hM
    · have hf2' : (trimSpaceStop s j s.length).2 = false := by simpa using hf2
      simp only [hf2', Bool.false_eq_true, if_false]
      refine ⟨s.take j, s.drop (trimSpaceStop s j s.length).1, hpre, hpost, hsplit, hM, ?_⟩
      rcases k4 hf2' with h0 | ⟨h1, h2, h3⟩
      · have : (s.take (trimSpaceStop s j s.length).1).drop j = [] :=
          List.drop_of_length_le (by rw [List.length_take]; omega)
        rw [this]
        exact endsWithSpace_nil
      · by_cases hjs : (trimSpaceStop s j s.length).1 ≤ j
        · have : (s.take (trimSpaceStop s j s.length).1).drop j = [] :=
            List.drop_of_length_le (by rw [List.length_take]; omega)
          rw [this]
          exact endsWithSpace_nil
        · have e : (trimSpaceStop s j s.length).1 = (trimSpaceStop s j s.length).1 - 1 + 1 := by
            omega
          have ht := take_succ_getD s ((trimSpaceStop s j s.length).1 - 1) (by omega)
          rw [← e] at ht
          rw [ht, List.drop_append_of_le_length (by rw [List.length_take]; omega)]
          simp only [endsWithSpace, decodeLastRune_ascii _ _ h2, isSpace_ascii _ h2, h3]

/-! ## Theorems: os.Expand -/

/-- Jumping over bytes is dropping them. -/
theorem expandRest_skip (mapping : GoString → GoString) (k : Nat) (s : List Nat) :
    expandRest mapping k s = expandRest mapping 0 (s.drop k) := by
  induction k generalizing s with
  | zero => rfl
  | succ k ih =>
    cases s with
    | nil => rfl
    | cons c rest => simpa [expandRest] using ih rest

/-- A suffix is the byte at its offset and the suffix after it. -/
theorem drop_eq_getD_cons (s : List Nat) (j : Nat) (h : j < s.length) :
    s.drop j = s.getD j 0 :: s.drop (j + 1) := by
  rw [List.getD_eq_getElem?_getD, List.getElem?_eq_getElem h]
  exact List.drop_eq_getElem_cons h

/-- The loop of `os.Expand`: what it returns, completed as `Expand` does, is `buf`, the bytes from `i` to `j` and the output for the bytes from `j` on. -/
theorem expandLoop_spec (s : List Nat) (mapping : GoString → GoString) (fuel : Nat) :
    ∀ (buf : Option GoString) (i j : Nat), i ≤ j → s.length ≤ j + fuel →
      (buf = none → i = 0) →
      (match expandLoop s mapping fuel buf i j with
        | (none, _) => s
        | (some b, k) => b ++ s.drop k)
        = buf.getD [] ++ (s.take j).drop i ++ expandRest mapping 0 (s.drop j) := by
  induction fuel with
  | zero =>
    intro buf i j hij hlen hnil
    have h1 : s.take j = s := List.take_of_length_le (by omega)
    have h2 : s.drop j = [] := List.drop_of_length_le (by omega)
    cases buf with
    | none => simp [expandLoop, h1, h2, hnil rfl, expandRest]
    | some b => simp [expandLoop, h1, h2, expandRest]
  | succ fuel ih =>
    intro buf i j hij hlen hnil
    by_cases hj : j < s.length
    · have hd := drop_eq_getD_cons s j hj
      have ht : (s.take (j + 1)).drop i = (s.take j).drop i ++ [s.getD j 0] := by
        rw [List.take_succ, List.getD_eq_getElem?_getD, List.getElem?_eq_getElem hj,
          List.drop_append_of_le_length (by rw [List.length_take]; omega)]
        rfl
      by_cases hc : s.getD j 0 = 36 ∧ j + 1 < s.length
      · have hne : s.drop (j + 1) ≠ [] := by
          intro h0
          have := congrArg List.length h0
          simp at this
          omega
        have hstep : expandLoop s mapping (fuel + 1) buf i j
            = expandLoop s mapping fuel
                (some (buf.getD [] ++ (s.take j).drop i
                  ++ expandStep mapping (s.getD j 0) (getShellName (s.drop (j + 1)))))
                (j + (getShellName (s.drop (j + 1))).2 + 1)
                (j + (getShellName (s.drop (j + 1))).2 + 1) := by
          simp only [expandLoop, hj, if_true, hc, and_self]
        rw [hstep, ih _ _ _ (le_refl _) (by omega) (fun h => absurd h (by simp))]
        have hr : expandRest mapping 0 (s.drop j)
            = expandStep mapping (s.getD j 0) (getShellName (s.drop (j + 1)))
              ++ expandRest mapping 0 (s.drop (j + (getShellName (s.drop (j + 1))).2 + 1)) := by
          rw [hd]
          simp only [expandRest, hc.1, hne, ne_eq, not_false_eq_true, and_self, if_true]
          rw [expandRest_skip, List.drop_drop]
          congr 3
          omega
        rw [hr]
        simp [List.drop_of_length_le]
      · have hstep : expandLoop s mapping (fuel + 1) buf i j
            = expandLoop s mapping fuel buf i (j + 1) := by
          simp only [expandLoop, hj, if_true, hc, if_false]
        rw [hstep, ih buf i (j + 1) (by omega) (by omega) hnil, ht]
        have hr : expandRest mapping 0 (s.drop j)
            = s.getD j 0 :: expandRest mapping 0 (s.drop (j + 1)) := by
          rw [hd]
          have hc' : ¬ (s.getD j 0 = 36 ∧ s.drop (j + 1) ≠ []) := by
            rintro ⟨h1, h2⟩
            apply hc
            refine ⟨h1, ?_⟩
            by_contra h3
            exact h2 (List.drop_of_length_le (by omega))
          simp only [expandRest, hc', if_false]
        rw [hr]
        simp
    · have h1 : s.take j = s := List.take_of_length_le (by omega)
      have h2 : s.drop j = [] := List.drop_of_length_le (by omega)
      have hstep : expandLoop s mapping (fuel + 1) buf i j = (buf, i) := by
        simp only [expandLoop, hj, if_false]
      rw [hstep]
      cases buf with
      | none => simp [h1, h2, hnil rfl, expandRest]
      | some b => simp [h1, h2, expandRest]

/-- Function `os.Expand` computes the output that `expandRest` describes. -/
theorem expand_eq_expandRest (s : List Nat) (mapping : GoString → GoString) :
    Expand s mapping = expandRest mapping 0 s := by
  have h := expandLoop_spec s mapping s.length none 0 0 (le_refl _) (by omega) (fun _ => rfl)
  simpa [Expand] using h

/-- Without a dollar sign the string is copied. -/
theorem expandRest_no_dollar (mapping : GoString → GoString) (s : GoString) (h : 36 ∉ s) :
    expandRest mapping 0 s = s := by
  induction s with
  | nil => rfl
  | cons c rest ih =>
    have hc : c ≠ 36 := fun e => h (by simp [e])
    have hr : 36 ∉ rest := fun e => h (by simp [e])
    simp [expandRest, hc, ih hr]

/-- The scan finds the closing brace after a name that holds none. -/
theorem scanBrace_append (v s : GoString) (i : Nat) (h : 125 ∉ v) :
    scanBrace (v ++ 125 :: s) i = some (i + v.length) := by
  induction v generalizing i with
  | nil => simp [scanBrace]
  | cons c rest ih =>
    have hc : c ≠ 125 := fun e => h (by simp [e])
    have hr : 125 ∉ rest := fun e => h (by simp [e])
    simp [scanBrace, hc, ih (i + 1) hr]
    omega

/-- Function `getShellName` on a braced name. -/
theorem getShellName_braced (v s : GoString) (hv : v ≠ []) (h : 125 ∉ v) :
    getShellName (123 :: (v ++ 125 :: s)) = (v, v.length + 2) := by
  cases v with
  | nil => exact absurd rfl hv
  | cons v0 vs =>
    cases vs with
    | nil =>
      have h0 : v0 ≠ 125 := fun e => h (by simp [e])
      by_cases hsp : isShellSpecialVar v0 = true
      · simp [getShellName, hsp]
      · simp [getShellName, hsp, scanBrace, h0]
    | cons v1 vt =>
      have h0 : v0 ≠ 125 := fun e => h (by simp [e])
      have h1 : v1 ≠ 125 := fun e => h (by simp [e])
      have ht : 125 ∉ vt := fun e => h (by simp [e])
      have hsc := scanBrace_append vt s 3 ht
      have e : 3 + vt.length = vt.length + 3 := by omega
      simp [getShellName, h1, scanBrace, h0, hsc]
      rw [if_neg (by omega), e]
      simp

/-- Function `Expand` on a braced name followed by text without a dollar sign. -/
theorem expand_braced (mapping : GoString → GoString) (v s : GoString) (hv : v ≠ [])
    (h : 125 ∉ v) (hs : 36 ∉ s) :
    Expand (36 :: 123 :: (v ++ 125 :: s)) mapping = mapping v ++ s := by
  have hg := getShellName_braced v s hv h
  have hdrop : (v ++ 125 :: s).drop (v.length + 1) = s := by
    have h1 : v ++ 125 :: s = (v ++ [125]) ++ s := by simp
    rw [h1]
    exact List.drop_left' (by simp)
  rw [expand_eq_expandRest]
  simp only [expandRest, ne_eq, List.cons_ne_nil, not_false_eq_true, and_self, if_true, hg,
    expandStep, hv, false_and, if_false]
  rw [expandRest_skip, hdrop, expandRest_no_dollar mapping s hs]

/-- Function `ExpandEnv` on a braced variable that is set. -/
theorem expandEnv_braced (env : Environ) (v d s : GoString) (hset : env v = some d)
    (hv : v ≠ []) (h : 125 ∉ v) (hs : 36 ∉ s) :
    ExpandEnv env (36 :: 123 :: (v ++ 125 :: s)) = d ++ s := by
  simp [ExpandEnv, expand_braced (Getenv env) v s hv h hs, Getenv, hset]

/-- Function `ExpandEnv` leaves a string without a dollar sign unchanged. -/
theorem expandEnv_no_dollar (env : Environ) (s : GoString) (h : 36 ∉ s) :
    ExpandEnv env s = s := by
  rw [ExpandEnv, expand_eq_expandRest]
  exact expandRest_no_dollar (Getenv env) s h

/-! ## Theorems: the adapter table -/

/-- The entry of a name after a run of registrations: the last registration under that name, or what the table held. -/
theorem lookup_registerAll {Connect : Type} (calls : List (GoString × Connect))
    (table : AdapterTable Connect) (name : GoString) :
    (registerAll table calls).lookup name
      = match calls.reverse.find? (fun c => c.1 = name) with
        | some c => some c.2
        | none => table.lookup name := by
  induction calls generalizing table with
  | nil => simp [registerAll]
  | cons c cs ih =>
    have hstep : registerAll table (c :: cs) = registerAll (RegisterAdapter table c.1 c.2) cs := rfl
    rw [hstep, ih, List.reverse_cons, List.find?_append]
    cases hf : cs.reverse.find? (fun c => decide (c.1 = name)) with
    | some x => simp
    | none =>
      by_cases hc : c.1 = name
      · subst hc
        simp [RegisterAdapter]
      · have hne : name ≠ c.1 := fun e => hc e.symm
        simp [hc, RegisterAdapter, AList.lookup_insert_ne hne]

/-! ## Theorems: tags of the point builder -/

/-- Step 1 of the point builder maps a key to its sanitized value. -/
theorem lookup_sanitizeTags (tags : TagSet) (k : String) :
    (sanitizeTags tags).lookup k = (tags.lookup k).map TagSanitizer := by
  obtain ⟨entries, nd⟩ := tags
  simp only [sanitizeTags, AList.lookup]
  clear nd
  induction entries with
  | nil => simp
  | cons e es ih =>
    obtain ⟨a, b⟩ := e
    by_cases h : k = a
    · subst h
      simp [List.dlookup_cons_eq]
    · have key : ∀ (x : String) (l : List (Sigma fun _ : String => String)),
          List.dlookup k (⟨a, x⟩ :: l) = List.dlookup k l :=
        fun x l => List.dlookup_cons_ne l ⟨a, x⟩ h
      simp only [List.map_cons, key, ih]

/-- Step 2 of the point builder, on the entries: a key already present keeps its value. -/
theorem lookup_mergeStep (globals : List (Sigma fun _ : String => String)) (acc : TagSet)
    (k : String) :
    (globals.foldl (fun acc e => if (acc.lookup e.1).isSome then acc
        else acc.insert e.1 (TagSanitizer e.2)) acc).lookup k
      = match acc.lookup k with
        | some v => some v
        | none => (globals.dlookup k).map TagSanitizer := by
  induction globals generalizing acc with
  | nil =>
    cases hl : acc.lookup k <;> simp [hl]
  | cons e es ih =>
    obtain ⟨a, b⟩ := e
    rw [List.foldl_cons, ih]
    by_cases hk : k = a
    · subst hk
      cases hl : acc.lookup k with
      | none => simp [hl, List.dlookup_cons_eq]
      | some v => simp [hl]
    · have key : ∀ (x : String) (l : List (Sigma fun _ : String => String)),
          List.dlookup k (⟨a, x⟩ :: l) = List.dlookup k l :=
        fun x l => List.dlookup_cons_ne l ⟨a, x⟩ hk
      rw [key]
      by_cases hs : (acc.lookup a).isSome
      · simp [hs]
      · simp [hs, AList.lookup_insert_ne hk]

/-- Step 2 of the point builder: a key already present keeps its value, another gets the sanitized global value. -/
theorem lookup_mergeGlobalTags (tags globals : TagSet) (k : String) :
    (mergeGlobalTags tags globals).lookup k
      = match tags.lookup k with
        | some v => some v
        | none => (globals.lookup k).map TagSanitizer :=
  lookup_mergeStep globals.entries tags k

/-- The ASCII space is not replaced. -/
theorem isReplaced_space : isReplaced ' ' = false := by decide

/-- Sanitizing a code point twice is sanitizing it once. -/
theorem sanitizeRune_idem (c : Char) : sanitizeRune (sanitizeRune c) = sanitizeRune c := by
  unfold sanitizeRune
  split_ifs with h1 h2 <;> rfl

/-! ## Theorems: the properties C1 to C10 -/

/-- C1: credential resolution. If the config's `password_file` is present and
non-empty, `Password()` is `LoadCredentialFromFile` of that path, the trimmed
content of the file when it can be read, whatever `password` holds; otherwise it
is the `password` field verbatim, or the empty string when that field is absent
too. -/
theorem password_resolution (c : Config) (env : Environ) (fs : FileSystem) :
    (∀ path, c.password_file = some path → path ≠ [] →
        c.Password env fs = LoadCredentialFromFile env fs path
        ∧ ∀ content, ReadFile fs (ExpandEnv env path) = .ok content →
            c.Password env fs = .ok (TrimSpace content))
    ∧ ((c.password_file = none ∨ c.password_file = some []) →
        (∀ secret, c.password = some secret → c.Password env fs = .ok secret)
        ∧ (c.password = none → c.Password env fs = .ok [])) := by
  refine ⟨fun path hp hne => ⟨?_, fun content hc => ?_⟩, fun h => ?_⟩
  · simp [Config.Password, hp, hne]
  · simp [Config.Password, hp, hne, LoadCredentialFromFile, hc]
  · rcases h with h | h <;> refine ⟨fun secret hs => ?_, fun hs => ?_⟩ <;>
      simp [Config.Password, h, hs]

/-- C1 at the config of the test that sets both fields: the file's secret wins
over `NotTheFilePassword`. -/
theorem password_resolution_witness :
    (testConfig.password_file = some (lit "testdata/password.txt")
      ∧ lit "testdata/password.txt" ≠ [])
    ∧ testConfig.Password testEnviron testFiles = .ok (lit "Extr3MePAssWORDfromFiLE") :=
  ⟨⟨rfl, by decide⟩,
    (((password_resolution testConfig testEnviron testFiles).1
      (lit "testdata/password.txt") rfl (by decide)).1).trans rfl⟩

/-- C2: for every filename whose expanded path names a readable file,
`LoadCredentialFromFile` returns the file's content without its leading and
trailing white space: the content is the result with white space only before
and after it, and the result neither starts nor ends with a white-space
character. -/
theorem loadCredential_trims (env : Environ) (fs : FileSystem) (filename content : GoString)
    (h : ReadFile fs (ExpandEnv env filename) = .ok content) :
    ∃ result pre post, LoadCredentialFromFile env fs filename = .ok result
      ∧ content = pre ++ result ++ post ∧ IsWhiteSpace pre ∧ IsWhiteSpace post
      ∧ startsWithSpace result = false ∧ endsWithSpace result = false := by
  obtain ⟨pre, post, h1, h2, h3, h4, h5⟩ := trimSpace_spec content
  exact ⟨TrimSpace content, pre, post, by simp [LoadCredentialFromFile, h], h3, h1, h2, h4, h5⟩

/-- C2 at the file of the test with white space around the secret. -/
theorem loadCredential_trims_witness :
    ReadFile testFiles (ExpandEnv testEnviron (lit "testdata/password-with-whitepaces.txt"))
        = .ok (lit "\n\n   EXTREMLY DIFFERENT\tPASSWORD \u3000\t\r\n")
    ∧ LoadCredentialFromFile testEnviron testFiles
        (lit "testdata/password-with-whitepaces.txt")
        = .ok (lit "EXTREMLY DIFFERENT\tPASSWORD")
    ∧ ∃ result pre post,
        LoadCredentialFromFile testEnviron testFiles
            (lit "testdata/password-with-whitepaces.txt") = .ok result
        ∧ lit "\n\n   EXTREMLY DIFFERENT\tPASSWORD \u3000\t\r\n" = pre ++ result ++ post
        ∧ IsWhiteSpace pre ∧ IsWhiteSpace post
        ∧ startsWithSpace result = false ∧ endsWithSpace result = false :=
  ⟨rfl, rfl, loadCredential_trims testEnviron testFiles _ _ rfl⟩

/-- C3: in an environment where the variable `VAR` is set to `d`, for a name `VAR`
that can stand between braces (non-empty, without the closing brace, byte 125)
and a suffix `s` without a dollar sign (byte 36), `LoadCredentialFromFile` of
`${VAR}` followed by `s` reads the file at `d ++ s`, and so equals
`LoadCredentialFromFile (d ++ s)` when `d` holds no dollar sign; and a filename
without a dollar sign is the path that is read. -/
theorem loadCredential_expands_variable (env : Environ) (fs : FileSystem) (VAR d s : GoString)
    (hset : env VAR = some d) (hname : VAR ≠ []) (hbrace : 125 ∉ VAR) (hs : 36 ∉ s) :
    ExpandEnv env (lit "$\x7b" ++ VAR ++ lit "\x7d" ++ s) = d ++ s
    ∧ LoadCredentialFromFile env fs (lit "$\x7b" ++ VAR ++ lit "\x7d" ++ s)
        = (ReadFile fs (d ++ s)).map TrimSpace
    ∧ (36 ∉ d → LoadCredentialFromFile env fs (lit "$\x7b" ++ VAR ++ lit "\x7d" ++ s)
        = LoadCredentialFromFile env fs (d ++ s))
    ∧ (∀ filename : GoString, 36 ∉ filename → ExpandEnv env filename = filename
        ∧ LoadCredentialFromFile env fs filename = (ReadFile fs filename).map TrimSpace) := by
  have e1 : lit "$\x7b" = [36, 123] := by decide
  have e2 : lit "\x7d" = [125] := by decide
  have e : lit "$\x7b" ++ VAR ++ lit "\x7d" ++ s = 36 :: 123 :: (VAR ++ 125 :: s) := by
    simp [e1, e2]
  have hx := expandEnv_braced env VAR d s hset hname hbrace hs
  have hload : ∀ p q : GoString, ExpandEnv env p = q →
      LoadCredentialFromFile env fs p = (ReadFile fs q).map TrimSpace := by
    intro p q hpq
    simp only [LoadCredentialFromFile, hpq]
    cases ReadFile fs q <;> rfl
  rw [e]
  refine ⟨hx, hload _ _ hx, ?_, ?_⟩
  · intro hd
    have hds : 36 ∉ d ++ s := by simp [hd, hs]
    rw [hload _ _ hx, hload _ _ (expandEnv_no_dollar env _ hds)]
  · intro filename hf
    exact ⟨expandEnv_no_dollar env _ hf, hload _ _ (expandEnv_no_dollar env _ hf)⟩

/-- C3 at the path of the test, `${CREDENTIALS_DIRECTORY}/password.txt` with the
variable set to `testdata`. -/
theorem loadCredential_expands_variable_witness :
    (testEnviron (lit "CREDENTIALS_DIRECTORY") = some (lit "testdata")
      ∧ lit "CREDENTIALS_DIRECTORY" ≠ [] ∧ 125 ∉ lit "CREDENTIALS_DIRECTORY"
      ∧ 36 ∉ lit "/password.txt")
    ∧ ExpandEnv testEnviron (lit "$\x7bCREDENTIALS_DIRECTORY\x7d/password.txt")
        = lit "testdata/password.txt"
    ∧ LoadCredentialFromFile testEnviron testFiles
        (lit "$\x7bCREDENTIALS_DIRECTORY\x7d/password.txt")
        = .ok (lit "Extr3MePAssWORDfromFiLE") :=
  ⟨⟨rfl, by decide, by decide, by decide⟩,
    (loadCredential_expands_variable testEnviron testFiles (lit "CREDENTIALS_DIRECTORY")
      (lit "testdata") (lit "/password.txt") rfl (by decide) (by decide) (by decide)).1,
    (loadCredential_expands_variable testEnviron testFiles (lit "CREDENTIALS_DIRECTORY")
      (lit "testdata") (lit "/password.txt") rfl (by decide) (by decide)
      (by decide)).2.1.trans rfl⟩

/-- C4: `LoadCredentialFromFile` panics, with the error of the read, if and only if
the file at the expanded path cannot be read; whenever the file can be read it
returns a value, the trimmed content, whatever the content is (empty or white
space only included). -/
theorem loadCredential_panics_iff_unreadable (env : Environ) (fs : FileSystem)
    (filename : GoString) :
    (∀ err, LoadCredentialFromFile env fs filename = .error err
        ↔ ReadFile fs (ExpandEnv env filename) = .error err)
    ∧ (∀ content, ReadFile fs (ExpandEnv env filename) = .ok content →
        LoadCredentialFromFile env fs filename = .ok (TrimSpace content))
    ∧ ((∃ secret, LoadCredentialFromFile env fs filename = .ok secret)
        ↔ ∃ content, ReadFile fs (ExpandEnv env filename) = .ok content)
    ∧ ((∃ err, LoadCredentialFromFile env fs filename = .error err)
        ↔ ¬ ∃ content, ReadFile fs (ExpandEnv env filename) = .ok content) := by
  simp only [LoadCredentialFromFile]
  cases h : ReadFile fs (ExpandEnv env filename) with
  | error e => simp
  | ok c => simp

/-- C4 at a file that does not exist and at files that hold nothing or white space
only. -/
theorem loadCredential_panics_iff_unreadable_witness :
    LoadCredentialFromFile testEnviron testFiles (lit "testdata/missing.txt")
        = .error ⟨lit "open", lit "testdata/missing.txt", lit "no such file or directory"⟩
    ∧ LoadCredentialFromFile testEnviron (fun _ => .ok []) (lit "empty") = .ok []
    ∧ LoadCredentialFromFile testEnviron (fun _ => .ok (lit " \t \n")) (lit "blank")
        = .ok [] :=
  ⟨((loadCredential_panics_iff_unreadable testEnviron testFiles
      (lit "testdata/missing.txt")).1 _).2 rfl,
    (loadCredential_panics_iff_unreadable testEnviron (fun _ => .ok []) (lit "empty")).2.1 [] rfl,
    ((loadCredential_panics_iff_unreadable testEnviron (fun _ => .ok (lit " \t \n"))
      (lit "blank")).2.1 _ rfl).trans rfl⟩

/-- C5, as amended: for every origin tag set, every global-tags config and every key
`K`, the tag set of the point that `addPoint` builds (the field set is not
empty) maps `K` to the sanitized origin value when the origin tag set holds `K`,
and to the sanitized configured global value when the config's tags hold `K`
and the origin tag set does not; it holds no `K` when neither does. A
configured global tag never replaces an origin tag of the same key. -/
theorem addPoint_tag_precedence (conn : Connection) (name : String) (origin : TagSet)
    (fields : FieldSet) (t : Int) (hf : fields.entries ≠ []) :
    ∃ point, addPoint conn name origin fields t
        = (.ok (), { conn with points := conn.points ++ [point] })
      ∧ ∀ K : String,
          (∀ v, origin.lookup K = some v → point.tags.lookup K = some (TagSanitizer v))
          ∧ (origin.lookup K = none →
              ∀ V, conn.config.tags.lookup K = some V →
                point.tags.lookup K = some (TagSanitizer V))
          ∧ (origin.lookup K = none → conn.config.tags.lookup K = none →
              point.tags.lookup K = none) := by
  have h' : fields.entries.isEmpty = false := by
    cases hfe : fields.entries with
    | nil => exact absurd hfe hf
    | cons a l => rfl
  refine ⟨⟨name, mergeGlobalTags (sanitizeTags origin) conn.config.tags, fields, t⟩,
    by simp [addPoint, NewPoint, h'], fun K => ?_⟩
  simp only [lookup_mergeGlobalTags, lookup_sanitizeTags]
  exact ⟨fun v hv => by simp [hv], fun hn V hV => by simp [hn, hV],
    fun hn hc => by simp [hn, hc]⟩

/-- C5 at the test's input: the config tries to set `nodeid`, which the origin
tags hold. -/
theorem addPoint_tag_precedence_witness :
    testFields.entries ≠ []
    ∧ ∃ point, addPoint testConnection "name" testOrigin testFields 0
        = (.ok (), { testConnection with points := testConnection.points ++ [point] })
      ∧ ∀ K : String,
          (∀ v, testOrigin.lookup K = some v → point.tags.lookup K = some (TagSanitizer v))
          ∧ (testOrigin.lookup K = none →
              ∀ V, testConnection.config.tags.lookup K = some V →
                point.tags.lookup K = some (TagSanitizer V))
          ∧ (testOrigin.lookup K = none → testConnection.config.tags.lookup K = none →
              point.tags.lookup K = none) :=
  ⟨by decide, addPoint_tag_precedence testConnection "name" testOrigin testFields 0 (by decide)⟩

/-- C5 as stated fails: the config's tags hold `site` with a value that has a tab
in it, the origin tag set lacks `site`, and the point built maps `site` to the
sanitized value, not to the configured one. -/
theorem addPoint_global_tag_not_verbatim :
    tabConnection.config.tags.lookup "site" = some "a\tb"
    ∧ (∅ : TagSet).lookup "site" = none
    ∧ ∃ point, addPoint tabConnection "name" ∅ testFields 0
        = (.ok (), { tabConnection with points := [point] })
      ∧ point.tags.lookup "site" = some "a b"
      ∧ point.tags.lookup "site" ≠ some "a\tb" :=
  ⟨by decide, by decide, ⟨_, rfl, by decide, by decide⟩⟩

/-- C6: for every tag value the sanitized value has as many code points as the
input; at each position it holds an ASCII space where the input holds a replaced
code point (tab, line feed, carriage return, NBSP, another control character or
another separator that is not the ASCII space) and the input's code point
elsewhere; U+0020 is not replaced; a value without replaced code points is
returned unchanged; and sanitizing is idempotent. -/
theorem tagSanitizer_positions (v : String) :
    (TagSanitizer v).length = v.length
    ∧ (∀ (i : Nat) (c : Char), v.data[i]? = some c →
        (TagSanitizer v).data[i]? = some (if isReplaced c then ' ' else c))
    ∧ ((∀ c ∈ v.data, isReplaced c = false) → TagSanitizer v = v)
    ∧ TagSanitizer (TagSanitizer v) = TagSanitizer v
    ∧ (∀ c, isReplaced c = true ↔
        c = '\t' ∨ c = '\n' ∨ c = '\r' ∨ c = Char.ofNat 0xA0 ∨ isControl c = true
          ∨ (isSeparator c = true ∧ c ≠ ' '))
    ∧ isReplaced ' ' = false := by
  refine ⟨?_, ?_, ?_, ?_, ?_, isReplaced_space⟩
  · show (v.data.map sanitizeRune).length = v.data.length
    exact List.length_map _ _
  · intro i c h
    simp [TagSanitizer, List.getElem?_map, h, sanitizeRune]
  · intro h
    have : v.data.map sanitizeRune = v.data := by
      conv_rhs => rw [← List.map_id v.data]
      apply List.map_congr_left
      intro c hc
      simp only [sanitizeRune, h c hc, Bool.false_eq_true, if_false, id]
    simp [TagSanitizer, this]
  · have e : sanitizeRune ∘ sanitizeRune = sanitizeRune := funext sanitizeRune_idem
    simp [TagSanitizer, e]
  · intro c
    constructor
    · intro h
      have h' : isControl c = true ∨ (isSeparator c = true ∧ c ≠ ' ') := by
        simpa [isReplaced] using h
      rcases h' with h' | h'
      · exact Or.inr (Or.inr (Or.inr (Or.inr (Or.inl h'))))
      · exact Or.inr (Or.inr (Or.inr (Or.inr (Or.inr h'))))
    · intro h
      rcases h with rfl | rfl | rfl | rfl | h | h
      · decide
      · decide
      · decide
      · decide
      · simp [isReplaced, h]
      · simp [isReplaced, h.1, h.2]

/-- C6 at the values of the two tests: the invalid characters become spaces, the
value with printable symbols only is returned unchanged. -/
theorem tagSanitizer_positions_witness :
    TagSanitizer " this owner\nuses invalid chars\t" = " this owner uses invalid chars "
    ∧ TagSanitizer "📶this owner uses only valid chars🛜"
        = "📶this owner uses only valid chars🛜" :=
  ⟨by decide,
    (tagSanitizer_positions "📶this owner uses only valid chars🛜").2.2.1 (by decide)⟩

/-- C7: for every measurement name, origin tag set, config and timestamp, building
a point with an empty field set fails with the construction error and leaves the
queue as it was; with a non-empty field set it builds one point, with that name,
field set and timestamp, and appends it to the queue. -/
theorem addPoint_empty_fields (conn : Connection) (name : String) (tags : TagSet)
    (fields : FieldSet) (t : Int) :
    (fields.entries = [] →
        addPoint conn name tags fields t = (.error .emptyFields, conn))
    ∧ (fields.entries ≠ [] →
        ∃ point, addPoint conn name tags fields t
            = (.ok (), { conn with points := conn.points ++ [point] })
          ∧ point.name = name ∧ point.fields = fields ∧ point.time = t) := by
  refine ⟨fun h => ?_, fun h => ?_⟩
  · simp [addPoint, NewPoint, h]
  · have h' : fields.entries.isEmpty = false := by
      cases hf : fields.entries with
      | nil => exact absurd hf h
      | cons a l => rfl
    exact ⟨⟨name, mergeGlobalTags (sanitizeTags tags) conn.config.tags, fields, t⟩,
      by simp [addPoint, NewPoint, h'], rfl, rfl, rfl⟩

/-- C7 at the test's input, no fields and tags that need sanitizing: the
construction error, and the connection as it was. -/
theorem addPoint_empty_fields_witness :
    (∅ : FieldSet).entries = []
    ∧ addPoint testConnection "name" (AList.singleton "owner" "a\tb") ∅ 0
        = (.error .emptyFields, testConnection) :=
  ⟨rfl, (addPoint_empty_fields testConnection "name" (AList.singleton "owner" "a\tb") ∅ 0).1 rfl⟩

/-- C8: for every adapter table, name and connect function `f`, after
`RegisterAdapter(name, f)` the table maps `name` to `f`; registering `f1` and then
`f2` under one name and indexing the table at that name gives `f2`, the later
registration. -/
theorem registerAdapter_maps_name {Connect : Type} (table : AdapterTable Connect)
    (name : GoString) (f f1 f2 : Connect) :
    (RegisterAdapter table name f).lookup name = some f
    ∧ (RegisterAdapter (RegisterAdapter table name f1) name f2).lookup name = some f2 := by
  simp [RegisterAdapter]

/-- C9: the table starts empty; after a run of `RegisterAdapter` calls the table
holds at a name the connect function of the last call under that name, and
nothing when no call was under that name, so a name is found if and only if it
is the name of one of the calls; the lookup returns what the table holds, or the
Unknown-Adapter error for a name it does not hold. -/
theorem lookup_found_iff_registered {Connect : Type} (calls : List (GoString × Connect))
    (name : GoString) :
    (Adapters Connect).keys = []
    ∧ (registerAll (Adapters Connect) calls).lookup name
        = (calls.reverse.find? (fun c => c.1 = name)).map Prod.snd
    ∧ (((registerAll (Adapters Connect) calls).lookup name).isSome = true
        ↔ name ∈ calls.map Prod.fst)
    ∧ Lookup (Adapters Connect) name = .error (.unknownAdapter name)
    ∧ Lookup (registerAll (Adapters Connect) calls) name
        = (match calls.reverse.find? (fun c => c.1 = name) with
          | some c => .ok c.2
          | none => .error (.unknownAdapter name))
    ∧ ((∃ factory, Lookup (registerAll (Adapters Connect) calls) name = .ok factory)
        ↔ name ∈ calls.map Prod.fst)
    ∧ (Lookup (registerAll (Adapters Connect) calls) name = .error (.unknownAdapter name)
        ↔ name ∉ calls.map Prod.fst) := by
  have hl := lookup_registerAll calls (Adapters Connect) name
  have hidx : (registerAll (Adapters Connect) calls).lookup name
      = (calls.reverse.find? (fun c => c.1 = name)).map Prod.snd := by
    rw [hl]
    cases calls.reverse.find? (fun c => decide (c.1 = name)) with
    | some c => rfl
    | none => simp [Adapters]
  have hchar : Lookup (registerAll (Adapters Connect) calls) name
      = (match calls.reverse.find? (fun c => c.1 = name) with
        | some c => .ok c.2
        | none => .error (.unknownAdapter name)) := by
    simp only [Lookup, hidx]
    cases calls.reverse.find? (fun c => decide (c.1 = name)) with
    | some c => rfl
    | none => rfl
  have hfind : (∃ c, calls.reverse.find? (fun c => decide (c.1 = name)) = some c)
      ↔ name ∈ calls.map Prod.fst := by
    constructor
    · rintro ⟨c, hc⟩
      have h1 := List.find?_some hc
      have h2 := List.mem_of_find?_eq_some hc
      simp only [decide_eq_true_eq] at h1
      exact List.mem_map.2 ⟨c, by simpa using h2, h1⟩
    · intro h
      obtain ⟨c, hc, hcn⟩ := List.mem_map.1 h
      cases hf : calls.reverse.find? (fun c => decide (c.1 = name)) with
      | some x => exact ⟨x, rfl⟩
      | none =>
        have := List.find?_eq_none.1 hf c (by simpa using hc)
        simp [hcn] at this
  refine ⟨rfl, hidx, ?_, by simp [Lookup, Adapters], hchar, ?_, ?_⟩
  · rw [hidx, ← hfind]
    cases calls.reverse.find? (fun c => decide (c.1 = name)) with
    | some c => simp
    | none => simp
  · rw [hchar, ← hfind]
    cases calls.reverse.find? (fun c => decide (c.1 = name)) with
    | some c => simp
    | none => simp
  · rw [hchar, ← hfind]
    cases calls.reverse.find? (fun c => decide (c.1 = name)) with
    | some c => simp
    | none => simp

/-- C9 at three registrations: the name registered twice is found with its later
connect function, a name never registered is not found. -/
theorem lookup_found_iff_registered_witness :
    Lookup (registerAll (Adapters Nat) testCalls) (lit "influxdb") = .ok 3
    ∧ Lookup (registerAll (Adapters Nat) testCalls) (lit "graphite")
        = .error (.unknownAdapter (lit "graphite")) :=
  ⟨((lookup_found_iff_registered testCalls (lit "influxdb")).2.2.2.2.1).trans rfl,
    (lookup_found_iff_registered testCalls (lit "graphite")).2.2.2.2.2.2.2 (by decide)⟩

/-- C10: `RegisterAdapter(name, f)` changes the table at `name` only: the entry of
every other name is what it was, a name registered afterwards is `name` or was
registered before, and the number of registered names grows by at most one. -/
theorem registerAdapter_frame {Connect : Type} (table : AdapterTable Connect)
    (name : GoString) (f : Connect) :
    (∀ m : GoString, m ≠ name → (RegisterAdapter table name f).lookup m = table.lookup m)
    ∧ (∀ m : GoString, m ∈ (RegisterAdapter table name f).keys → m = name ∨ m ∈ table.keys)
    ∧ (∀ m : GoString, m ∈ table.keys → m ∈ (RegisterAdapter table name f).keys)
    ∧ (RegisterAdapter table name f).keys.length ≤ table.keys.length + 1 := by
  refine ⟨fun m hm => AList.lookup_insert_ne hm, ?_, ?_, ?_⟩
  · intro m hm
    rw [← AList.mem_keys] at hm ⊢
    simpa [RegisterAdapter] using hm
  · intro m hm
    rw [← AList.mem_keys] at hm ⊢
    simp [RegisterAdapter, hm]
  · simp only [RegisterAdapter, AList.keys_insert, List.length_cons]
    exact Nat.succ_le_succ
      (@List.length_erase_le GoString instBEqOfDecidableEq name table.keys)

/-- C10 at the table of three registrations: registering `influxdb` once more
leaves the entry of `logging` as it was. -/
theorem registerAdapter_frame_witness :
    lit "logging" ≠ lit "influxdb"
    ∧ (RegisterAdapter (registerAll (Adapters Nat) testCalls) (lit "influxdb") 4).lookup
        (lit "logging") = some 2 :=
  ⟨by decide,
    ((registerAdapter_frame (registerAll (Adapters Nat) testCalls) (lit "influxdb") 4).1
      (lit "logging") (by decide)).trans rfl⟩

end Yanic
